import Mathlib

/-!
Verification of the rebar-inspection post-processing core.

The development embeds, over exact rationals (idealizing Python floats),
the geometry module (cross product, Andrew monotone-chain convex hull,
interior-point search, hoop-path generation), the OCR helper module
(pingfa rebar-spec parsing, compliance evaluation) and the spacing
compliance classifier of the web layer, and proves the specified
properties about them.
-/

namespace Rebar

/-- A point in image-pixel space, `(x, y)`.  Python floats are modelled
by exact rationals. -/
abbrev Point : Type := ℚ × ℚ

/-- `cross_product o a b` — the 2D cross product of vectors OA and OB;
positive means counter-clockwise turn (geometry.py, lines 11-16). -/
def cross_product (o a b : Point) : ℚ :=
  (a.1 - o.1) * (b.2 - o.2) - (a.2 - o.2) * (b.1 - o.1)

/-- Lexicographic comparison of points: Python tuple ordering `(x, y) <= (x', y')`
used by `sorted` on coordinate pairs. -/
def lexLe (p q : Point) : Prop :=
  p.1 < q.1 ∨ (p.1 = q.1 ∧ p.2 ≤ q.2)

/-- Strict lexicographic comparison of points. -/
def lexLt (p q : Point) : Prop :=
  p.1 < q.1 ∨ (p.1 = q.1 ∧ p.2 < q.2)

instance : DecidableRel lexLe := fun p q => by
  unfold lexLe; infer_instance

instance : DecidableRel lexLt := fun p q => by
  unfold lexLt; infer_instance

instance : IsTrans Point lexLe where
  trans := by
    rintro a b c (h₁ | ⟨e₁, h₁⟩) (h₂ | ⟨e₂, h₂⟩)
    · exact Or.inl (h₁.trans h₂)
    · exact Or.inl (e₂ ▸ h₁)
    · exact Or.inl (e₁ ▸ h₂)
    · exact Or.inr ⟨e₁.trans e₂, h₁.trans h₂⟩

instance : IsAntisymm Point lexLe where
  antisymm := by
    rintro ⟨ax, ay⟩ ⟨bx, hy⟩ (h₁ | ⟨e₁, h₁⟩) (h₂ | ⟨e₂, h₂⟩) <;> simp_all
    · exact absurd (h₁.trans h₂) (lt_irrefl _)
    · exact le_antisymm h₁ h₂

instance : IsTotal Point lexLe where
  total := by
    rintro ⟨ax, ay⟩ ⟨bx, hy⟩
    unfold lexLe
    rcases lt_trichotomy ax bx with h | h | h
    · exact Or.inl (Or.inl h)
    · rcases le_total ay hy with h₂ | h₂
      · exact Or.inl (Or.inr ⟨h, h₂⟩)
      · exact Or.inr (Or.inr ⟨h.symm, h₂⟩)
    · exact Or.inr (Or.inl h)

/-- `sorted(set(points))` from the Python source: the distinct points in
ascending lexicographic order. -/
def sortPts (l : List Point) : List Point :=
  l.dedup.insertionSort lexLe

/-- One iteration of the monotone-chain construction: the `while`-pop
loop followed by the append, acting on the chain kept in reverse
(most recent point first). -/
def push : List Point → Point → List Point
  | [], p => [p]
  | [a], p => [p, a]
  | b :: a :: t, p =>
      if cross_product a b p ≤ 0 then push (a :: t) p else p :: b :: a :: t

/-- The full monotone-chain scan of a point list (the `lower`/`upper`
loop of `convex_hull`), returning the chain in processing order. -/
def scanChain (l : List Point) : List Point :=
  (l.foldl push []).reverse

/-- `convex_hull` (geometry.py, lines 19-54): Andrew monotone chain.
Fewer than 3 points are returned verbatim; otherwise the distinct
sorted points are scanned into a lower and an upper chain, concatenated
with the last element of each dropped. -/
def convex_hull (points : List Point) : List Point :=
  if points.length < 3 then points
  else
    let ps := sortPts points
    if ps.length < 3 then ps
    else (scanChain ps).dropLast ++ (scanChain ps.reverse).dropLast

/-- `find_inner_points` (geometry.py, lines 89-101): the points of
`all_points` that are not members of the hull. -/
def find_inner_points (all_points hull : List Point) : List Point :=
  all_points.filter (fun p => ¬ p ∈ hull)

/-- Result record of `check_compliance`. -/
structure ComplianceResult where
  status : String
  message : String
deriving Repr, DecidableEq

/-- `check_compliance` (ocr_helper.py, lines 175-208): compares the
detected count against the design total. -/
def check_compliance (detected_count design_total : ℤ) : ComplianceResult :=
  if design_total = 0 then
    { status := "UNKNOWN", message := "未提供设计数量，无法判定" }
  else
    let diff := detected_count - design_total
    if diff = 0 then
      { status := "PASS"
        message := "✅ 合规：检测数量(" ++ toString detected_count ++
          ")与设计数量(" ++ toString design_total ++ ")一致" }
    else if diff > 0 then
      { status := "WARNING"
        message := "⚠️ 警告：检测数量(" ++ toString detected_count ++
          ")超出设计数量(" ++ toString design_total ++ ")，多出 " ++
          toString diff ++ " 根" }
    else
      { status := "FAIL"
        message := "❌ 不合规：检测数量(" ++ toString detected_count ++
          ")少于设计数量(" ++ toString design_total ++ ")，缺少 " ++
          toString (abs diff) ++ " 根" }

/-- One parsed rebar specification `{count, diameter}`. -/
structure RebarSpec where
  count : ℕ
  diameter : ℕ
deriving Repr, DecidableEq

/-- The character class `[CΦφ]` with `re.IGNORECASE`: either case of the
latin letter C or of the greek letter phi. -/
def isClassChar (c : Char) : Bool :=
  c = 'C' || c = 'c' || c = 'Φ' || c = 'φ'

/-- Numeric value of a run of decimal digits (Python `int`). -/
def digitsVal (ds : List Char) : ℕ :=
  ds.foldl (fun n c => 10 * n + (c.toNat - 48)) 0

/-- Attempt to match the regex `(\d+)\s*[CΦφ]\s*(\d+)` at the head of the
character list, returning the two captured numbers and the remaining
characters after the match.  Since the digit, whitespace and class
character sets are pairwise disjoint, the greedy match is deterministic
and needs no backtracking.  Digits and whitespace are modelled as ASCII. -/
def matchAt (cs : List Char) : Option ((ℕ × ℕ) × List Char) :=
  let d1 := cs.takeWhile Char.isDigit
  let r1 := cs.dropWhile Char.isDigit
  if d1.isEmpty then none else
  let r2 := r1.dropWhile Char.isWhitespace
  match r2 with
  | [] => none
  | c :: r3 =>
    if isClassChar c then
      let r4 := r3.dropWhile Char.isWhitespace
      let d2 := r4.takeWhile Char.isDigit
      let r5 := r4.dropWhile Char.isDigit
      if d2.isEmpty then none else some ((digitsVal d1, digitsVal d2), r5)
    else none

/-- Dropping a while-prefix never lengthens a list. -/
theorem dropWhile_len_le {α : Type} (p : α → Bool) (l : List α) :
    (l.dropWhile p).length ≤ l.length := by
  induction l with
  | nil => simp
  | cons a l ih =>
      rw [List.dropWhile_cons]
      split
      · simpa using Nat.le_succ_of_le ih
      · simp

/-- A successful match consumes at least one character (in fact at least
three), so the remainder is strictly shorter. -/
theorem matchAt_length {cs : List Char} {m : ℕ × ℕ} {rest : List Char}
    (h : matchAt cs = some (m, rest)) : rest.length < cs.length := by
  unfold matchAt at h
  simp only [] at h
  split at h
  · exact absurd h (by simp)
  · split at h
    · exact absurd h (by simp)
    · rename_i r2h c r3 hr2
      split at h
      · split at h
        · exact absurd h (by simp)
        · simp only [Option.some.injEq, Prod.mk.injEq] at h
          have e5 : rest = (r3.dropWhile Char.isWhitespace).dropWhile Char.isDigit := h.2.symm
          have l5 : rest.length ≤ r3.length := by
            rw [e5]
            exact le_trans (dropWhile_len_le _ _) (dropWhile_len_le _ _)
          have l3 : r3.length <
              ((cs.dropWhile Char.isDigit).dropWhile Char.isWhitespace).length := by
            rw [hr2]; simp
          have l2 : ((cs.dropWhile Char.isDigit).dropWhile Char.isWhitespace).length
              ≤ cs.length :=
            le_trans (dropWhile_len_le _ _) (dropWhile_len_le _ _)
          omega
      · exact absurd h (by simp)

/-- Fuel-indexed scanner for `re.findall`: try a match at each position,
consume it on success, advance one character on failure.  A match always
consumes at least one character, so fuel `cs.length` never runs out
(`findallAux_fuel_irrelevant`); the fuel only makes the recursion
structural. -/
def findallAux : ℕ → List Char → List (ℕ × ℕ)
  | 0, _ => []
  | _, [] => []
  | fuel + 1, c :: cs =>
    match matchAt (c :: cs) with
    | some (m, rest) => m :: findallAux fuel rest
    | none => findallAux fuel cs

/-- `re.findall` for the pingfa pattern: scan left to right, taking each
leftmost non-overlapping match and continuing after it. -/
def findallPingfa (cs : List Char) : List (ℕ × ℕ) :=
  findallAux cs.length cs

theorem findallAux_nil (fuel : ℕ) : findallAux fuel [] = [] := by
  cases fuel <;> rfl

/-- Any fuel at least the list length computes the same scan, so
`findallPingfa` models the unbounded Python loop. -/
theorem findallAux_fuel_irrelevant :
    ∀ (f₁ f₂ : ℕ) (cs : List Char), cs.length ≤ f₁ → cs.length ≤ f₂ →
      findallAux f₁ cs = findallAux f₂ cs := by
  intro f₁
  induction f₁ with
  | zero =>
      intro f₂ cs h₁ _
      have : cs = [] := List.length_eq_zero.1 (Nat.le_zero.1 h₁)
      subst this
      rw [findallAux_nil, findallAux_nil]
  | succ k ih =>
      intro f₂ cs h₁ h₂
      match cs with
      | [] => rw [findallAux_nil, findallAux_nil]
      | c :: cs =>
        match f₂ with
        | 0 => simp at h₂
        | m + 1 =>
          show findallAux (k+1) (c :: cs) = findallAux (m+1) (c :: cs)
          unfold findallAux
          rcases hm : matchAt (c :: cs) with _ | ⟨mm, rest⟩
          · simp only []
            have hlen : cs.length ≤ k := by simpa using h₁
            have hlen₂ : cs.length ≤ m := by simpa using h₂
            exact ih m cs hlen hlen₂
          · simp only []
            have hr := matchAt_length hm
            have hlen : rest.length ≤ k := by
              simp at hr h₁; omega
            have hlen₂ : rest.length ≤ m := by
              simp at hr h₂; omega
            rw [ih m rest hlen hlen₂]

/-- `parse_pingfa` (ocr_helper.py, lines 47-79): every regex match whose
count lies in `[1, 50]` and diameter in `[6, 50]` is kept, in order;
out-of-range matches are dropped. -/
def parse_pingfa (text : List Char) : List RebarSpec :=
  (findallPingfa text).filterMap (fun m =>
    if 1 ≤ m.1 ∧ m.1 ≤ 50 ∧ 6 ≤ m.2 ∧ m.2 ≤ 50 then
      some { count := m.1, diameter := m.2 }
    else none)

/-- One inner tie segment (geometry.py, lines 140-155); `fromPt`/`toPt`
model the dict keys `from`/`to` (Lean keywords). -/
structure TieSegment where
  fromPt : Point
  toPt : Point
  type : String
deriving Repr, DecidableEq

/-- Result of `generate_hoop_path`. -/
structure HoopPath where
  outer_hoop : List Point
  inner_ties : List TieSegment
deriving Repr, DecidableEq

/-- Python `max` of a nonempty list (callers guarantee nonemptiness). -/
def listMax : List ℚ → ℚ
  | [] => 0
  | x :: t => t.foldl max x

/-- Python `min` of a nonempty list (callers guarantee nonemptiness). -/
def listMin : List ℚ → ℚ
  | [] => 0
  | x :: t => t.foldl min x

/-- `generate_hoop_path` (geometry.py, lines 104-161): fewer than 3
detections yield empty outputs; otherwise the hull of the centers is the
outer hoop and every non-hull center generates one horizontal or
vertical tie across the hull bounding box. -/
def generate_hoop_path (predictions : List Point) : HoopPath :=
  if predictions.length < 3 then { outer_hoop := [], inner_ties := [] }
  else
    let points := predictions
    let hull := convex_hull points
    let inner := find_inner_points points hull
    let inner_ties :=
      if inner.isEmpty || hull.isEmpty then []
      else
        let min_x := listMin (hull.map Prod.fst)
        let max_x := listMax (hull.map Prod.fst)
        let min_y := listMin (hull.map Prod.snd)
        let max_y := listMax (hull.map Prod.snd)
        let center_x := (min_x + max_x) / 2
        let center_y := (min_y + max_y) / 2
        inner.map (fun p =>
          if |p.1 - center_x| > |p.2 - center_y| then
            { fromPt := (min_x, p.2), toPt := (max_x, p.2), type := "horizontal" }
          else
            { fromPt := (p.1, min_y), toPt := (p.1, max_y), type := "vertical" })
    { outer_hoop := hull, inner_ties := inner_ties }

/-- Python `round(v, 1)` on an exact rational: round `10*v` to the nearest
integer and divide by 10 (ties idealized to round-half-up; the claims never
evaluate at an exact tie). -/
def round1 (x : ℚ) : ℚ := (round (10 * x) : ℤ) / 10

/-- Python `round(v, 1)` on a real value. -/
noncomputable def round1R (x : ℝ) : ℝ := (round (10 * x) : ℤ) / 10

/-- Euclidean pixel distance `((ex-sx)**2 + (ey-sy)**2) ** 0.5` between
two centers (app.py, line 378). -/
noncomputable def pxDist (s e : Point) : ℝ :=
  Real.sqrt (((e.1 - s.1) ^ 2 + (e.2 - s.2) ^ 2 : ℚ) : ℝ)

/-- Millimeter distance `px_dist / pixel_per_mm` (app.py, line 379). -/
noncomputable def mmDist (ppm : ℚ) (s e : Point) : ℝ :=
  pxDist s e / (ppm : ℝ)

/-- One element of the spacing-check result list (app.py, lines 381-416).
The Python dict keys `status`, `color`, `label` are only present for the
two recognized component types, hence `Option`; `endp` models the key
`end` (a Lean keyword). -/
structure SpacingInfo where
  index : ℕ
  start : ℚ × ℚ
  endp : ℚ × ℚ
  px_distance : ℝ
  mm_distance : ℝ
  status : Option String
  color : Option String
  label : Option String

/-- The status/color/label triple assigned by the classification branch
(app.py, lines 389-416): `slab_wall` compares against the single target,
`beam_column` tries the dense window first and then the sparse one, and
any other component type assigns no keys at all. -/
noncomputable def classify (component_type : String) (mm_dist : ℝ)
    (target_spacing target_spacing_dense target_spacing_sparse tolerance : ℚ) :
    Option String × Option String × Option String :=
  if component_type = "slab_wall" then
    if |mm_dist - (target_spacing : ℝ)| ≤ (tolerance : ℝ) then
      (some "pass", some "#00e676", some "合格")
    else
      (some "fail", some "#ff1744", some "不合格")
  else if component_type = "beam_column" then
    if |mm_dist - (target_spacing_dense : ℝ)| ≤ (tolerance : ℝ) then
      (some "pass_dense", some "#00e5ff", some "加密区合格")
    else if |mm_dist - (target_spacing_sparse : ℝ)| ≤ (tolerance : ℝ) then
      (some "pass_sparse", some "#00e676", some "非加密区合格")
    else
      (some "fail", some "#ff1744", some "不合格")
  else (none, none, none)

/-- The `spacing_info` record built for the pair `(s, e)` at index `i`
(app.py, lines 381-416). -/
noncomputable def mkSpacingInfo (component_type : String)
    (pixel_per_mm target_spacing target_spacing_dense target_spacing_sparse tolerance : ℚ)
    (i : ℕ) (s e : Point) : SpacingInfo :=
  let px := pxDist s e
  let mm := mmDist pixel_per_mm s e
  let c := classify component_type mm
    target_spacing target_spacing_dense target_spacing_sparse tolerance
  { index := i
    start := (round1 s.1, round1 s.2)
    endp := (round1 e.1, round1 e.2)
    px_distance := round1R px
    mm_distance := round1R mm
    status := c.1
    color := c.2.1
    label := c.2.2 }

/-- The direction-sorted center list (app.py, lines 357-370): if the x
range is at least the y range, stable-sort by x, else stable-sort by y. -/
def spacingSorted (centers : List Point) : List Point :=
  let xs := centers.map Prod.fst
  let ys := centers.map Prod.snd
  if listMax xs - listMin xs ≥ listMax ys - listMin ys then
    centers.insertionSort (fun a b => a.1 ≤ b.1)
  else
    centers.insertionSort (fun a b => a.2 ≤ b.2)

/-- The `spacings` list built by the main loop of `process_spacing_check`
(app.py, lines 372-418): one record per adjacent pair of the
direction-sorted centers. -/
noncomputable def spacingSegments (predictions : List Point)
    (component_type : String) (pixel_per_mm : ℚ)
    (target_spacing target_spacing_dense target_spacing_sparse tolerance : ℚ) :
    List SpacingInfo :=
  let sorted := spacingSorted predictions
  (sorted.zip sorted.tail).enum.map (fun ie =>
    mkSpacingInfo component_type pixel_per_mm
      target_spacing target_spacing_dense target_spacing_sparse tolerance
      ie.1 ie.2.1 ie.2.2)

/-- `process_spacing_check` (app.py, lines 341-425).  Besides building the
per-segment records, the summary line `sum(1 for s in spacings if
s.status differs from fail)` reads the `status` key of every segment; a
missing key raises a `KeyError`, modelled as `Except.error`.  The Python
defaults are `target_spacing=150`, `target_spacing_dense=100`,
`target_spacing_sparse=200`, `tolerance=20`. -/
noncomputable def process_spacing_check (predictions : List Point)
    (component_type : String) (pixel_per_mm : ℚ)
    (target_spacing target_spacing_dense target_spacing_sparse tolerance : ℚ) :
    Except String (List SpacingInfo) :=
  if predictions.length < 2 ∨ pixel_per_mm ≤ 0 then Except.ok []
  else
    let spacings := spacingSegments predictions component_type pixel_per_mm
      target_spacing target_spacing_dense target_spacing_sparse tolerance
    if spacings.all (fun s => s.status.isSome) then Except.ok spacings
    else Except.error "KeyError: status"

/-! ### Order toolkit for the lexicographic comparison -/

theorem lexLe_refl (p : Point) : lexLe p p := Or.inr ⟨rfl, le_refl _⟩

theorem lexLt_iff (p q : Point) : lexLt p q ↔ lexLe p q ∧ p ≠ q := by
  unfold lexLt lexLe
  constructor
  · rintro (h | ⟨e, h⟩)
    · exact ⟨Or.inl h, fun hc => by simp [hc] at h⟩
    · refine ⟨Or.inr ⟨e, le_of_lt h⟩, fun hc => by simp [hc] at h⟩
  · rintro ⟨h | ⟨e, h⟩, hne⟩
    · exact Or.inl h
    · refine Or.inr ⟨e, lt_of_le_of_ne h ?_⟩
      intro hy
      exact hne (Prod.ext e hy)

theorem lexLt_irrefl (p : Point) : ¬ lexLt p p := by
  rw [lexLt_iff]; simp

theorem lexLe_of_lexLt {p q : Point} (h : lexLt p q) : lexLe p q :=
  ((lexLt_iff p q).1 h).1

theorem lexLt_ne {p q : Point} (h : lexLt p q) : p ≠ q :=
  ((lexLt_iff p q).1 h).2

theorem lexLe_antisymm_eq {p q : Point} (h₁ : lexLe p q) (h₂ : lexLe q p) : p = q :=
  antisymm h₁ h₂

theorem lexLe_trans_le {p q r : Point} (h₁ : lexLe p q) (h₂ : lexLe q r) : lexLe p r :=
  Trans.trans h₁ h₂

theorem lexLt_of_lexLe_ne {p q : Point} (h : lexLe p q) (hne : p ≠ q) : lexLt p q :=
  (lexLt_iff p q).2 ⟨h, hne⟩

theorem lexLt_trans {p q r : Point} (h₁ : lexLt p q) (h₂ : lexLt q r) : lexLt p r := by
  have h₁e := lexLe_of_lexLt h₁
  have h₂e := lexLe_of_lexLt h₂
  refine lexLt_of_lexLe_ne (lexLe_trans_le h₁e h₂e) ?_
  rintro rfl
  exact lexLt_ne h₁ (lexLe_antisymm_eq h₁e h₂e)

theorem lexLt_lexLe_trans {p q r : Point} (h₁ : lexLt p q) (h₂ : lexLe q r) : lexLt p r := by
  have h₁e := lexLe_of_lexLt h₁
  refine lexLt_of_lexLe_ne (lexLe_trans_le h₁e h₂) ?_
  rintro rfl
  exact lexLt_ne h₁ (lexLe_antisymm_eq h₁e h₂)

theorem lexLe_lexLt_trans {p q r : Point} (h₁ : lexLe p q) (h₂ : lexLt q r) : lexLt p r := by
  refine lexLt_of_lexLe_ne (lexLe_trans_le h₁ (lexLe_of_lexLt h₂)) ?_
  rintro rfl
  exact lexLt_ne h₂ (lexLe_antisymm_eq (lexLe_of_lexLt h₂) h₁)

theorem lexLe_total_pair (p q : Point) : lexLe p q ∨ lexLe q p := total_of lexLe p q

theorem not_lexLe_iff {p q : Point} : ¬ lexLe p q ↔ lexLt q p := by
  constructor
  · intro h
    rcases lexLe_total_pair p q with hc | hc
    · exact absurd hc h
    · exact lexLt_of_lexLe_ne hc (fun e => h (e ▸ lexLe_refl q))
  · intro h hc
    exact lexLt_irrefl q (lexLt_lexLe_trans h hc)

theorem lexLe_x {p q : Point} (h : lexLe p q) : p.1 ≤ q.1 := by
  rcases h with h | ⟨e, _⟩
  · exact le_of_lt h
  · exact le_of_eq e

theorem lexLt_x {p q : Point} (h : lexLt p q) : p.1 ≤ q.1 :=
  lexLe_x (lexLe_of_lexLt h)

theorem lexLe_y_of_eq_x {p q : Point} (h : lexLe p q) (e : p.1 = q.1) : p.2 ≤ q.2 := by
  rcases h with h | ⟨_, h⟩
  · exact absurd e (ne_of_lt h)
  · exact h

/-! ### Basic properties of `sortPts` -/

theorem sortPts_perm (l : List Point) : (sortPts l).Perm l.dedup :=
  List.perm_insertionSort lexLe l.dedup

theorem sortPts_sorted (l : List Point) : (sortPts l).Sorted lexLe :=
  List.sorted_insertionSort lexLe l.dedup

theorem sortPts_nodup (l : List Point) : (sortPts l).Nodup :=
  ((sortPts_perm l).nodup_iff).2 l.nodup_dedup

theorem mem_sortPts {l : List Point} {a : Point} : a ∈ sortPts l ↔ a ∈ l := by
  rw [(sortPts_perm l).mem_iff, List.mem_dedup]

theorem sortPts_length (l : List Point) : (sortPts l).length = l.dedup.length :=
  (sortPts_perm l).length_eq

theorem sortPts_chain (l : List Point) : (sortPts l).Pairwise lexLt := by
  have h₁ : (sortPts l).Pairwise lexLe := sortPts_sorted l
  have h₂ : (sortPts l).Pairwise (fun a b : Point => a ≠ b) := sortPts_nodup l
  exact (h₁.and h₂).imp (fun h => lexLt_of_lexLe_ne h.1 h.2)

/-- On an input with at least 3 entries but fewer than 3 distinct points,
`convex_hull` returns the sorted deduplicated points. -/
theorem convex_hull_of_dedup_lt_three {l : List Point}
    (h3 : 3 ≤ l.length) (hd : l.dedup.length < 3) :
    convex_hull l = sortPts l := by
  unfold convex_hull
  rw [if_neg (by omega)]
  simp only []
  rw [if_pos (by rw [sortPts_length]; exact hd)]

/-- `sortPts` of a nonempty list is nonempty. -/
theorem sortPts_ne_nil {l : List Point} (h : l ≠ []) : sortPts l ≠ [] := by
  intro hc
  have hlen := sortPts_length l
  rw [hc] at hlen
  simp only [List.length_nil] at hlen
  exact h ((List.dedup_eq_nil l).1 (List.length_eq_zero.1 hlen.symm))

/-! ### Cross-product algebra

The invariants of the monotone-chain scan rest on a handful of algebraic
facts about the orientation test, proved here by direct computation. -/

theorem cross_self_last (o a : Point) : cross_product o a o = 0 := by
  unfold cross_product; ring

theorem cross_self_mid (o a : Point) : cross_product o a a = 0 := by
  unfold cross_product; ring

/-- The orientation is antisymmetric in its last two arguments. -/
theorem cross_swap (o a b : Point) : cross_product o b a = - cross_product o a b := by
  unfold cross_product; ring

/-- The orientation is invariant under cyclic rotation of its arguments. -/
theorem cross_cyclic (o a b : Point) : cross_product a b o = cross_product o a b := by
  unfold cross_product; ring

/-- Recharge across a pop: if `q` lies on or left of the chain edge
`a → b`, lexicographically between its endpoints, and the new point `p`
beyond `b` makes a non-left turn (so `b` is popped), then `q` is on or
left of the would-be edge `a → p`. -/
theorem recharge1 {a b p q : Point}
    (haq : lexLe a q) (hqb : lexLe q b) (hbp : lexLt b p)
    (hq : 0 ≤ cross_product a b q) (hp : cross_product a b p ≤ 0) :
    0 ≤ cross_product a p q := by
  have hax : a.1 ≤ q.1 := lexLe_x haq
  have hqx : q.1 ≤ b.1 := lexLe_x hqb
  have hbx : b.1 ≤ p.1 := lexLt_x hbp
  by_cases hx : a.1 < b.1
  · have key : cross_product a p q * (b.1 - a.1) =
        cross_product a b q * (p.1 - a.1) - cross_product a b p * (q.1 - a.1) := by
      unfold cross_product; ring
    nlinarith [mul_nonneg hq (by linarith : (0:ℚ) ≤ p.1 - a.1),
      mul_nonpos_of_nonpos_of_nonneg hp (by linarith : (0:ℚ) ≤ q.1 - a.1)]
  · have hab : a.1 = b.1 := le_antisymm (le_trans hax hqx) (le_of_not_lt hx)
    have hqa : q.1 = a.1 := le_antisymm (hab ▸ hqx) hax
    have hay : a.2 ≤ q.2 := lexLe_y_of_eq_x haq hqa.symm
    have hpx : a.1 ≤ p.1 := hab ▸ hbx
    have : cross_product a p q = (p.1 - a.1) * (q.2 - a.2) := by
      unfold cross_product
      rw [hqa]
      ring
    rw [this]
    exact mul_nonneg (by linarith) (by linarith)

/-- Recharge of a pending charge across a pop: if `q` lies on or left of
the pending edge `b → p` and the pop removes `b` (non-left turn
`a → b → p`), then `q` is on or left of the new pending edge `a → p`. -/
theorem recharge2 {a b p q : Point}
    (hab : lexLt a b) (hbq : lexLe b q) (hqp : lexLe q p) (hblt : lexLt b p)
    (hq : 0 ≤ cross_product b p q) (hp : cross_product a b p ≤ 0) :
    0 ≤ cross_product a p q := by
  have hax : a.1 ≤ b.1 := lexLt_x hab
  have hbx : b.1 ≤ q.1 := lexLe_x hbq
  have hqx : q.1 ≤ p.1 := lexLe_x hqp
  by_cases hx : b.1 < p.1
  · have key : cross_product a p q * (p.1 - b.1) =
        cross_product b p q * (p.1 - a.1) - cross_product a b p * (p.1 - q.1) := by
      unfold cross_product; ring
    nlinarith [mul_nonneg hq (by linarith : (0:ℚ) ≤ p.1 - a.1),
      mul_nonpos_of_nonpos_of_nonneg hp (by linarith : (0:ℚ) ≤ p.1 - q.1)]
  · have hbp : b.1 = p.1 := le_antisymm (le_trans hbx hqx) (le_of_not_lt hx)
    have hby : b.2 < p.2 := by
      rcases hblt with h | ⟨e, h⟩
      · exact absurd h (hbp ▸ lt_irrefl _)
      · exact h
    have hqx₂ : q.1 = b.1 := le_antisymm (hbp ▸ hqx) hbx
    have hpa : cross_product a b p = (b.1 - a.1) * (p.2 - b.2) := by
      unfold cross_product
      rw [hbp]
      ring
    have hxa : b.1 - a.1 ≤ 0 := by nlinarith [hpa ▸ hp]
    have hab₂ : a.1 = b.1 := le_antisymm hax (by linarith)
    have : cross_product a p q = 0 := by
      unfold cross_product
      rw [hab₂]
      rw [show p.1 = b.1 from hbp.symm, hqx₂]
      ring
    rw [this]

/-- Rotating the top edge left: if `q` and `p` are both on or left of the
top edge `t₂ → t`, `q` lexicographically at most `t` and `p` beyond `t`,
then `q` is on or left of the appended edge `t → p`. -/
theorem rotateLeft {t₂ t p q : Point}
    (h1 : 0 ≤ cross_product t₂ t q) (h2 : 0 ≤ cross_product t₂ t p)
    (hqt : lexLe q t) (htt : lexLt t₂ t) (htp : lexLt t p) :
    0 ≤ cross_product t p q := by
  have hqx : q.1 ≤ t.1 := lexLe_x hqt
  have htx : t₂.1 ≤ t.1 := lexLt_x htt
  have hpx : t.1 ≤ p.1 := lexLt_x htp
  by_cases hx : t₂.1 < t.1
  · have key : cross_product t p q * (t.1 - t₂.1) =
        cross_product t₂ t q * (p.1 - t.1) + cross_product t₂ t p * (t.1 - q.1) := by
      unfold cross_product; ring
    nlinarith [mul_nonneg h1 (by linarith : (0:ℚ) ≤ p.1 - t.1),
      mul_nonneg h2 (by linarith : (0:ℚ) ≤ t.1 - q.1)]
  · have hex : t₂.1 = t.1 := le_antisymm htx (le_of_not_lt hx)
    have hty : t₂.2 < t.2 := by
      rcases htt with h | ⟨e, h⟩
      · exact absurd h (hex ▸ lt_irrefl _)
      · exact h
    have h2' : cross_product t₂ t p = (t.2 - t₂.2) * (t₂.1 - p.1) := by
      unfold cross_product
      rw [← hex]
      ring
    have hpt : p.1 ≤ t₂.1 := by nlinarith [h2' ▸ h2]
    have hpe : p.1 = t.1 := le_antisymm (le_of_not_lt (by rw [← hex]; exact not_lt.2 hpt)) hpx |>.symm ▸ rfl
    have hpy : t.2 < p.2 := by
      rcases htp with h | ⟨e, h⟩
      · exact absurd h (by rw [hpe]; exact lt_irrefl _)
      · exact h
    have : cross_product t p q = (p.2 - t.2) * (t.1 - q.1) := by
      unfold cross_product
      rw [show p.1 = t.1 from hpe]
      ring
    rw [this]
    exact mul_nonneg (by linarith) (by linarith)

/-- Walking a strictly convex chain backwards: if the chain turns left at
`B` and `p` is on or left of the edge `B → C`, then `p` is on or left of
the previous edge `A → B`. -/
theorem backStep {A B C p : Point}
    (hturn : 0 < cross_product A B C) (hp : 0 ≤ cross_product B C p)
    (hAB : lexLt A B) (hBC : lexLt B C) (hCp : lexLe C p) :
    0 ≤ cross_product A B p := by
  have hax : A.1 ≤ B.1 := lexLt_x hAB
  have hbx : B.1 ≤ C.1 := lexLt_x hBC
  have hcx : C.1 ≤ p.1 := lexLe_x hCp
  by_cases hx : B.1 < C.1
  · have key : cross_product A B p * (C.1 - B.1) =
        cross_product A B C * (p.1 - B.1) + cross_product B C p * (B.1 - A.1) := by
      unfold cross_product; ring
    nlinarith [mul_nonneg (le_of_lt hturn) (by linarith : (0:ℚ) ≤ p.1 - B.1),
      mul_nonneg hp (by linarith : (0:ℚ) ≤ B.1 - A.1)]
  · have hex : B.1 = C.1 := le_antisymm hbx (le_of_not_lt hx)
    have hby : B.2 < C.2 := by
      rcases hBC with h | ⟨e, h⟩
      · exact absurd h (hex ▸ lt_irrefl _)
      · exact h
    have hp' : cross_product B C p = (C.2 - B.2) * (B.1 - p.1) := by
      unfold cross_product
      rw [← hex]
      ring
    have hpb : p.1 ≤ B.1 := by nlinarith [hp' ▸ hp]
    have hpe : p.1 = B.1 := le_antisymm hpb (by linarith)
    have hpy : C.2 ≤ p.2 := by
      rcases hCp with h | ⟨e, h⟩
      · exact absurd h (by rw [hpe, hex]; exact lt_irrefl _)
      · exact h
    have : cross_product A B p = (B.1 - A.1) * (p.2 - B.2) := by
      unfold cross_product
      rw [hpe]
      ring
    rw [this]
    exact mul_nonneg (by linarith) (by linarith)

/-! ### The monotone-chain stack and its invariants

`scanChain` folds `push` over the sorted points, keeping the chain in
reverse (top of stack = most recent point).  `stackPairs` lists the
chain's directed edges `(earlier, later)` and `stackTriples` its
consecutive turn triples, both read off the stack. -/

def stackPairs : List Point → List (Point × Point)
  | [] => []
  | [_] => []
  | b :: a :: t => (a, b) :: stackPairs (a :: t)

def stackTriples : List Point → List (Point × Point × Point)
  | [] => []
  | [_] => []
  | [_, _] => []
  | c :: b :: a :: t => (a, b, c) :: stackTriples (b :: a :: t)

/-- `q` lies lexicographically between `a` and `b` and on or left of the
directed edge `a → b`. -/
def Charged (a b q : Point) : Prop :=
  lexLe a q ∧ lexLe q b ∧ 0 ≤ cross_product a b q

/-- `q` is accounted for by the chain: charged to one of its edges, or
the chain is the single point `q`. -/
def AboveS (st : List Point) (q : Point) : Prop :=
  (∃ pr ∈ stackPairs st, Charged pr.1 pr.2 q) ∨ st = [q]

/-- Pending charge: `q` is on or left of the edge from the stack top to
the incoming point `p`. -/
def PC : List Point → Point → Point → Prop
  | [], _, _ => False
  | a :: _, p, q => lexLe a q ∧ lexLe q p ∧ 0 ≤ cross_product a p q

/-- The stack is strictly decreasing lexicographically from top to
bottom. -/
def StkSorted (st : List Point) : Prop :=
  st.Pairwise (fun x y => lexLt y x)

/-- Every consecutive triple of the chain is a strict left turn. -/
def GoodTurns (st : List Point) : Prop :=
  ∀ tr ∈ stackTriples st, 0 < cross_product tr.1 tr.2.1 tr.2.2

/-- Every processed point is on or left of every chain edge. -/
def EdgesLeft (st : List Point) (S : List Point) : Prop :=
  ∀ pr ∈ stackPairs st, ∀ q ∈ S, 0 ≤ cross_product pr.1 pr.2 q

theorem stackPairs_mem : ∀ {st : List Point} {pr : Point × Point},
    pr ∈ stackPairs st → pr.1 ∈ st ∧ pr.2 ∈ st := by
  intro st
  induction st with
  | nil => intro pr h; simp [stackPairs] at h
  | cons b rest ih =>
      intro pr h
      match rest with
      | [] => simp [stackPairs] at h
      | a :: t =>
        rw [stackPairs] at h
        rcases List.mem_cons.1 h with h | h
        · subst h
          exact ⟨List.mem_cons_of_mem _ (List.mem_cons_self _ _), List.mem_cons_self _ _⟩
        · have := ih h
          exact ⟨List.mem_cons_of_mem _ this.1, List.mem_cons_of_mem _ this.2⟩

theorem stackPairs_cons_sub {x : Point} {t : List Point} :
    stackPairs t ⊆ stackPairs (x :: t) := by
  match t with
  | [] => intro pr h; simp [stackPairs] at h
  | a :: t' =>
      intro pr h
      rw [stackPairs]
      exact List.mem_cons_of_mem _ h

theorem stackPairs_suffix : ∀ {st' st : List Point}, st' <:+ st →
    stackPairs st' ⊆ stackPairs st := by
  intro st' st h
  obtain ⟨pre, rfl⟩ := h
  induction pre with
  | nil => exact fun pr h => h
  | cons x pre ih =>
      exact fun pr h => stackPairs_cons_sub (ih h)

theorem stackTriples_cons_sub {x : Point} {t : List Point} :
    stackTriples t ⊆ stackTriples (x :: t) := by
  match t with
  | [] => intro tr h; simp [stackTriples] at h
  | [a] => intro tr h; simp [stackTriples] at h
  | b :: a :: t' =>
      intro tr h
      rw [stackTriples]
      exact List.mem_cons_of_mem _ h

theorem stackTriples_suffix : ∀ {st' st : List Point}, st' <:+ st →
    stackTriples st' ⊆ stackTriples st := by
  intro st' st h
  obtain ⟨pre, rfl⟩ := h
  induction pre with
  | nil => exact fun tr h => h
  | cons x pre ih =>
      exact fun tr h => stackTriples_cons_sub (ih h)

/-- Shape of a push: the result is `p` on top of a suffix of the old
stack; if the suffix still has an edge on top, the new point makes a
strict left turn over it (the pop loop's exit condition). -/
theorem push_exit : ∀ (st : List Point) (p : Point),
    ∃ st', push st p = p :: st' ∧ st' <:+ st ∧ (st ≠ [] → st' ≠ []) ∧
      (∀ b a t, st' = b :: a :: t → 0 < cross_product a b p) := by
  intro st
  induction st with
  | nil =>
      intro p
      exact ⟨[], rfl, List.nil_suffix, by simp, by intro b a t h; cases h⟩
  | cons x rest ih =>
      intro p
      match rest with
      | [] =>
          refine ⟨[x], rfl, List.suffix_refl _, by simp, ?_⟩
          intro b a t h; cases h
      | a :: t =>
          by_cases hc : cross_product a x p ≤ 0
          · obtain ⟨st', he, hsfx, hne, hexit⟩ := ih p
            refine ⟨st', ?_, hsfx.trans (List.suffix_cons x (a :: t)), ?_, hexit⟩
            · show push (x :: a :: t) p = _
              rw [push, if_pos hc]
              exact he
            · intro _
              exact hne (by simp)
          · refine ⟨x :: a :: t, ?_, List.suffix_refl _, by simp, ?_⟩
            · show push (x :: a :: t) p = _
              rw [push, if_neg hc]
            · intro b a' t' h
              injection h with h1 h2
              injection h2 with h3 h4
              subst h1; subst h3; subst h4
              exact lt_of_not_le hc

/-- Preservation of charges through one push: a point `q` accounted for
by the old chain (or by the pending edge to `p`) is accounted for by the
new chain.  Pops move charges from the popped edge to the pending edge
(`recharge1`/`recharge2`). -/
theorem push_above : ∀ (st : List Point) (p q : Point),
    StkSorted st → (∀ x ∈ st, lexLt x p) → lexLe q p →
    (AboveS st q ∨ PC st p q) → AboveS (push st p) q := by
  intro st
  induction st with
  | nil =>
      intro p q _ _ _ h
      rcases h with (⟨pr, hpr, _⟩ | h) | h
      · simp [stackPairs] at hpr
      · cases h
      · cases h
  | cons x rest ih =>
      intro p q hsort hlt hq h
      match rest with
      | [] =>
          have hcx : Charged x p q := by
            rcases h with (⟨pr, hpr, _⟩ | h) | h
            · simp [stackPairs] at hpr
            · injection h with h1 _
              rw [h1]
              exact ⟨lexLe_refl q, hq, le_of_eq (cross_self_last q p).symm⟩
            · exact h
          left
          exact ⟨(x, p), by rw [show push [x] p = [p, x] from rfl, stackPairs]; simp, hcx⟩
      | a :: t =>
          have hax : lexLt a x := by
            rcases hsort with _ | ⟨hx, _⟩
            exact hx a (List.mem_cons_self _ _)
          have hxp : lexLt x p := hlt x (List.mem_cons_self _ _)
          by_cases hc : cross_product a x p ≤ 0
          · have hstep : push (x :: a :: t) p = push (a :: t) p := by
              rw [push, if_pos hc]
            rw [hstep]
            apply ih p q
            · rcases hsort with _ | ⟨_, hs⟩
              exact hs
            · intro y hy
              exact hlt y (List.mem_cons_of_mem _ hy)
            · exact hq
            · rcases h with (⟨pr, hpr, hch⟩ | h) | h
              · rw [stackPairs] at hpr
                rcases List.mem_cons.1 hpr with h₁ | h₁
                · subst h₁
                  right
                  show PC (a :: t) p q
                  rw [PC]
                  exact ⟨hch.1, hq, recharge1 hch.1 hch.2.1 hxp hch.2.2 hc⟩
                · left
                  exact Or.inl ⟨pr, h₁, hch⟩
              · cases h
              · rw [PC] at h
                right
                rw [PC]
                refine ⟨lexLe_trans_le (lexLe_of_lexLt hax) h.1, hq, ?_⟩
                exact recharge2 hax h.1 h.2.1 hxp h.2.2 hc
          · have hstep : push (x :: a :: t) p = p :: x :: a :: t := by
              rw [push, if_neg hc]
            rw [hstep]
            rcases h with (⟨pr, hpr, hch⟩ | h) | h
            · left
              exact ⟨pr, by rw [stackPairs]; exact List.mem_cons_of_mem _ hpr, hch⟩
            · cases h
            · rw [PC] at h
              left
              exact ⟨(x, p), by rw [stackPairs]; exact List.mem_cons_self _ _, h⟩

theorem stkSorted_head_max {x : Point} {rest : List Point}
    (hs : StkSorted (x :: rest)) : ∀ y ∈ x :: rest, lexLe y x := by
  intro y hy
  rcases List.mem_cons.1 hy with h | h
  · exact h ▸ lexLe_refl x
  · rcases hs with _ | ⟨hx, _⟩
    exact lexLe_of_lexLt (hx y h)

theorem stkSorted_suffix {st' st : List Point} (h : st' <:+ st)
    (hs : StkSorted st) : StkSorted st' :=
  List.Pairwise.sublist h.sublist hs

theorem getLast?_suffix {st' st : List Point} (h : st' <:+ st)
    (hne : st' ≠ []) : st.getLast? = st'.getLast? := by
  obtain ⟨pre, rfl⟩ := h
  exact List.getLast?_append_of_ne_nil pre hne

/-- If the chain turns strictly left everywhere and the new point is on
or left of the top edge, it is on or left of every chain edge. -/
theorem edges_left_p : ∀ (st : List Point) (p : Point),
    StkSorted st → (∀ x ∈ st, lexLt x p) → GoodTurns st →
    (∀ b a t, st = b :: a :: t → 0 ≤ cross_product a b p) →
    ∀ pr ∈ stackPairs st, 0 ≤ cross_product pr.1 pr.2 p := by
  intro st
  induction st with
  | nil => intro p _ _ _ _ pr hpr; simp [stackPairs] at hpr
  | cons b rest ih =>
      intro p hsort hlt hturns htop pr hpr
      match rest with
      | [] => simp [stackPairs] at hpr
      | a :: t =>
        rw [stackPairs] at hpr
        rcases List.mem_cons.1 hpr with h | h
        · subst h
          exact htop b a t rfl
        · apply ih p
          · exact stkSorted_suffix (List.suffix_cons b (a :: t)) hsort
          · intro y hy; exact hlt y (List.mem_cons_of_mem _ hy)
          · intro tr htr
            exact hturns tr (stackTriples_cons_sub htr)
          · intro b' a' t' he
            -- the next edge down: use the strict turn (a', a, b) and backStep
            have he₂ : a :: t = b' :: a' :: t' := he
            have htr : (a', b', b) ∈ stackTriples (b :: a :: t) := by
              rw [he₂, stackTriples]
              exact List.mem_cons_self _ _
            have hturn := hturns _ htr
            have hab : lexLt a' b' := by
              have hs := stkSorted_suffix (List.suffix_cons b (a :: t)) hsort
              rw [he₂] at hs
              rcases hs with _ | ⟨hx, _⟩
              exact hx a' (List.mem_cons_self _ _)
            have hbb : lexLt b' b := by
              rcases hsort with _ | ⟨hx, _⟩
              refine hx b' ?_
              rw [he₂]
              exact List.mem_cons_self _ _
            have hbp : lexLe b p := lexLe_of_lexLt (hlt b (List.mem_cons_self _ _))
            have htopf : 0 ≤ cross_product b' b p := by
              have := htop b a t rfl
              have hba : a = b' := by injection he₂
              rw [← hba]
              exact this
            exact backStep hturn htopf hab hbb hbp
          · exact h

/-- The full invariant of the monotone-chain scan: after processing the
strictly increasing prefix `S`, the stack `st` is a nonempty strictly
decreasing sub-chain of `S` running from the last processed point (top)
to the first (bottom), all its turns are strict left turns, every
processed point lies on or left of every chain edge, and every processed
point is charged to some chain edge. -/
structure ScanInv (S st : List Point) : Prop where
  ne : st ≠ []
  sorted : StkSorted st
  subset : ∀ x ∈ st, x ∈ S
  head_eq : st.head? = S.getLast?
  last_eq : st.getLast? = S.head?
  turns : GoodTurns st
  edges : EdgesLeft st S
  above : ∀ q ∈ S, AboveS st q

theorem push_scanInv {S st : List Point} {p : Point}
    (hS : ∀ q ∈ S, lexLt q p) (inv : ScanInv S st) :
    ScanInv (S ++ [p]) (push st p) := by
  obtain ⟨st', heq, hsfx, hne', hexit⟩ := push_exit st p
  have hlt : ∀ x ∈ st, lexLt x p := fun x hx => hS x (inv.subset x hx)
  have hlt' : ∀ x ∈ st', lexLt x p := fun x hx => hlt x (hsfx.subset hx)
  have hsub' : ∀ x ∈ st', x ∈ st := fun x hx => hsfx.subset hx
  have hne'' : st' ≠ [] := hne' inv.ne
  have hsort' : StkSorted st' := stkSorted_suffix hsfx inv.sorted
  have habove : ∀ q ∈ S, AboveS (push st p) q := fun q hq =>
    push_above st p q inv.sorted hlt (lexLe_of_lexLt (hS q hq))
      (Or.inl (inv.above q hq))
  obtain ⟨h', rest', hrest⟩ : ∃ h' rest', st' = h' :: rest' := by
    cases st' with
    | nil => exact absurd rfl hne''
    | cons h' rest' => exact ⟨h', rest', rfl⟩
  have hSne : S ≠ [] := by
    intro hc
    cases st with
    | nil => exact inv.ne rfl
    | cons z zs => exact absurd (hc ▸ inv.subset z (List.mem_cons_self _ _)) (by simp)
  have hmax' : ∀ y ∈ st', lexLe y h' := by
    rw [hrest]
    exact stkSorted_head_max (hrest ▸ hsort')
  have hpexit : ∀ b a t, st' = b :: a :: t → 0 ≤ cross_product a b p :=
    fun b a t he => le_of_lt (hexit b a t he)
  have hedgep : ∀ pr ∈ stackPairs st', 0 ≤ cross_product pr.1 pr.2 p :=
    edges_left_p st' p hsort' hlt'
      (fun tr htr => inv.turns tr (stackTriples_suffix hsfx htr)) hpexit
  have hnewpair : ∀ q ∈ S, 0 ≤ cross_product h' p q := by
    intro q hq
    have ha := habove q hq
    rw [heq, hrest] at ha
    rcases ha with ⟨pr, hpr, hch⟩ | hsingle
    · rw [stackPairs] at hpr
      rcases List.mem_cons.1 hpr with h₁ | h₁
      · rw [h₁] at hch
        exact hch.2.2
      · -- q charged to a deeper pair: rotate over the top edge of st'
        match rest', hrest, h₁ with
        | [], hrest, h₁ => simp [stackPairs] at h₁
        | a :: t', hrest, h₁ =>
          have hm := stackPairs_mem h₁
          have hq2 : lexLe q h' := by
            refine lexLe_trans_le hch.2.1 (hmax' pr.2 ?_)
            rw [hrest]
            exact hm.2
          have hedge : 0 ≤ cross_product a h' q := by
            have hmem : (a, h') ∈ stackPairs st := by
              apply stackPairs_suffix hsfx
              rw [hrest, stackPairs]
              exact List.mem_cons_self _ _
            exact inv.edges _ hmem q hq
          have hah : lexLt a h' := by
            have hs : StkSorted (h' :: a :: t') := by rw [← hrest]; exact hsort'
            rcases hs with _ | ⟨hx, _⟩
            exact hx a (List.mem_cons_self _ _)
          have htopp : 0 ≤ cross_product a h' p := hpexit h' a t' hrest
          have hhp : lexLt h' p := by
            refine hlt' h' ?_
            rw [hrest]
            exact List.mem_cons_self _ _
          exact rotateLeft hedge htopp hq2 hah hhp
    · -- the singleton case cannot occur: the new stack has ≥ 2 elements
      cases hsingle
  constructor
  · rw [heq]; simp
  · rw [heq]
    refine List.pairwise_cons.2 ⟨?_, hsort'⟩
    intro y hy
    exact hlt' y hy
  · intro x hx
    rw [heq] at hx
    rcases List.mem_cons.1 hx with h | h
    · subst h; simp
    · exact List.mem_append_left _ (inv.subset x (hsub' x h))
  · rw [heq]
    simp [List.getLast?_concat]
  · rw [heq]
    have h₁ : (p :: st').getLast? = st'.getLast? := by
      rw [hrest]
      simp [List.getLast?_cons]
    rw [h₁, ← getLast?_suffix hsfx hne'', inv.last_eq]
    cases S with
    | nil => exact absurd rfl hSne
    | cons s S' => simp
  · intro tr htr
    rw [heq, hrest] at htr
    match rest', hrest, htr with
    | [], hrest, htr => simp [stackTriples] at htr
    | a :: t', hrest, htr =>
        rw [stackTriples] at htr
        rcases List.mem_cons.1 htr with h | h
        · rw [h]
          exact hexit h' a t' hrest
        · refine inv.turns tr (stackTriples_suffix hsfx ?_)
          rw [hrest]
          exact h
  · intro pr hpr q hq
    rw [heq, hrest, stackPairs] at hpr
    rcases List.mem_cons.1 hpr with h | h
    · subst h
      rcases List.mem_append.1 hq with h₂ | h₂
      · exact hnewpair q h₂
      · rw [List.mem_singleton.1 h₂]
        exact le_of_eq (cross_self_mid h' p).symm
    · have hpr' : pr ∈ stackPairs st' := hrest ▸ h
      rcases List.mem_append.1 hq with h₂ | h₂
      · exact inv.edges pr (stackPairs_suffix hsfx hpr') q h₂
      · rw [List.mem_singleton.1 h₂]
        exact hedgep pr hpr'
  · intro q hq
    rcases List.mem_append.1 hq with h₂ | h₂
    · exact habove q h₂
    · rw [List.mem_singleton.1 h₂]
      apply push_above st p p inv.sorted hlt (lexLe_refl p)
      right
      cases st with
      | nil => exact absurd rfl inv.ne
      | cons z zs =>
          rw [PC]
          exact ⟨lexLe_of_lexLt (hlt z (List.mem_cons_self _ _)), lexLe_refl p,
            le_of_eq (cross_self_mid z p).symm⟩

/-- The scan invariant holds after folding `push` over any nonempty
strictly increasing point list. -/
theorem scan_inv : ∀ (l : List Point), l.Pairwise lexLt → l ≠ [] →
    ScanInv l (l.foldl push []) := by
  intro l
  induction l using List.reverseRecOn with
  | nil => intro _ h; exact absurd rfl h
  | append_singleton l p ih =>
      intro hpw _
      have hfold : (l ++ [p]).foldl push [] = push (l.foldl push []) p := by
        rw [List.foldl_append]
        rfl
      rcases eq_or_ne l [] with rfl | hlne
      · rw [hfold]
        show ScanInv ([] ++ [p]) (push [] p)
        constructor
        · simp [push]
        · show StkSorted [p]
          exact List.pairwise_singleton _ _
        · intro x hx
          simpa [push] using hx
        · rfl
        · rfl
        · intro tr htr; simp [push, stackTriples] at htr
        · intro pr hpr; simp [push, stackPairs] at hpr
        · intro q hq
          simp only [List.nil_append, List.mem_singleton] at hq
          right
          rw [hq]
          rfl
      · rw [hfold]
        have hS : ∀ q ∈ l, lexLt q p := by
          intro q hq
          have := (List.pairwise_append.1 hpw).2.2
          exact this q hq p (List.mem_singleton_self _)
        exact push_scanInv hS (ih (List.Pairwise.sublist (by simp) hpw) hlne)

/-! ### Negation transport

The upper chain is the scan of the reversed (strictly decreasing) point
list; negating both coordinates reverses the lexicographic order while
preserving every cross product, so the lower-chain invariants transport
to the upper chain. -/

def negPt (p : Point) : Point := (-p.1, -p.2)

theorem negPt_negPt (p : Point) : negPt (negPt p) = p := by
  unfold negPt; simp

theorem cross_negPt (o a b : Point) :
    cross_product (negPt o) (negPt a) (negPt b) = cross_product o a b := by
  unfold cross_product negPt; ring

theorem lexLt_negPt {a b : Point} : lexLt (negPt a) (negPt b) ↔ lexLt b a := by
  unfold lexLt negPt
  dsimp only
  constructor
  · rintro (h | ⟨e, h⟩)
    · exact Or.inl (by linarith)
    · exact Or.inr ⟨by linarith, by linarith⟩
  · rintro (h | ⟨e, h⟩)
    · exact Or.inl (by linarith)
    · exact Or.inr ⟨by rw [e], by linarith⟩

theorem lexLe_negPt {a b : Point} : lexLe (negPt a) (negPt b) ↔ lexLe b a := by
  constructor
  · intro h
    rcases lexLe_total_pair b a with h₂ | h₂
    · exact h₂
    · rcases eq_or_ne a b with rfl | hne
      · exact lexLe_refl a
      · have := lexLt_negPt.2 (lexLt_of_lexLe_ne h₂ hne)
        exact absurd h (not_lexLe_iff.2 this)
  · intro h
    rcases lexLe_total_pair (negPt a) (negPt b) with h₂ | h₂
    · exact h₂
    · rcases eq_or_ne b a with rfl | hne
      · exact lexLe_refl _
      · have := lexLt_negPt.1 (lexLt_of_lexLe_ne h₂ (fun e => hne (by
          have := congrArg negPt e
          rwa [negPt_negPt, negPt_negPt] at this)))
        exact absurd h (not_lexLe_iff.2 this)

theorem push_negPt (st : List Point) (p : Point) :
    push (st.map negPt) (negPt p) = (push st p).map negPt := by
  induction st with
  | nil => rfl
  | cons x rest ih =>
      match rest with
      | [] => rfl
      | a :: t =>
          show push (negPt x :: negPt a :: t.map negPt) (negPt p) = _
          rw [push]
          rw [cross_negPt a x p]
          by_cases hc : cross_product a x p ≤ 0
          · rw [if_pos hc]
            rw [show (negPt a :: t.map negPt) = (a :: t).map negPt from rfl, ih]
            rw [show push (x :: a :: t) p = push (a :: t) p from by rw [push, if_pos hc]]
          · rw [if_neg hc]
            rw [show push (x :: a :: t) p = p :: x :: a :: t from by rw [push, if_neg hc]]
            rfl

theorem foldl_push_negPt (l : List Point) (st : List Point) :
    (l.map negPt).foldl push (st.map negPt) = (l.foldl push st).map negPt := by
  induction l generalizing st with
  | nil => rfl
  | cons x rest ih =>
      show (rest.map negPt).foldl push (push (st.map negPt) (negPt x)) = _
      rw [push_negPt, ih]
      rfl

theorem stackPairs_map_negPt : ∀ (st : List Point),
    stackPairs (st.map negPt) = (stackPairs st).map (fun pr => (negPt pr.1, negPt pr.2)) := by
  intro st
  induction st with
  | nil => rfl
  | cons b rest ih =>
      match rest with
      | [] => rfl
      | a :: t =>
          show stackPairs (negPt b :: negPt a :: t.map negPt) = _
          rw [stackPairs]
          rw [show (negPt a :: t.map negPt) = (a :: t).map negPt from rfl, ih]
          rfl

/-! ### From charges to convex-hull membership -/

theorem comb_mem_segment (x y : Point) (t : ℚ) (h0 : 0 ≤ t) (h1 : t ≤ 1) :
    (1 - t) • x + t • y ∈ segment ℚ x y :=
  ⟨1 - t, t, by linarith, h0, by ring, rfl⟩

theorem comb_fst (t : ℚ) (x y : Point) :
    ((1 - t) • x + t • y).1 = (1 - t) * x.1 + t * y.1 := rfl

theorem comb_snd (t : ℚ) (x y : Point) :
    ((1 - t) • x + t • y).2 = (1 - t) * x.2 + t * y.2 := rfl

/-- A point that lies lexicographically between the endpoints of a
vertical pair and on whose segment bounds is on the segment itself. -/
theorem mem_segment_vertical {x y q : Point} (hxy : x.1 = y.1)
    (hxq : lexLe x q) (hqy : lexLe q y) : q ∈ segment ℚ x y := by
  have hx1 : x.1 ≤ q.1 := lexLe_x hxq
  have hq1 : q.1 ≤ y.1 := lexLe_x hqy
  have hqx : q.1 = x.1 := le_antisymm (hxy ▸ hq1) hx1
  have hx2 : x.2 ≤ q.2 := lexLe_y_of_eq_x hxq hqx.symm
  have hq2 : q.2 ≤ y.2 := lexLe_y_of_eq_x hqy (hqx.trans hxy)
  by_cases he : y.2 = x.2
  · have : q = x := by
      apply Prod.ext hqx
      exact le_antisymm (he ▸ hq2) hx2
    rw [this]
    exact left_mem_segment ℚ x y
  · have hlt : x.2 < y.2 := lt_of_le_of_ne (le_trans hx2 hq2) (Ne.symm he)
    have hne : y.2 - x.2 ≠ 0 := sub_ne_zero.mpr (ne_of_gt hlt)
    set t : ℚ := (q.2 - x.2) / (y.2 - x.2) with ht
    have h0 : 0 ≤ t := div_nonneg (by linarith) (by linarith)
    have h1 : t ≤ 1 := by
      rw [ht, div_le_one (by linarith)]
      linarith
    have : q = (1 - t) • x + t • y := by
      apply Prod.ext
      · rw [comb_fst, hqx, hxy]
        ring
      · rw [comb_snd, ht]
        field_simp
        ring
    rw [this]
    exact comb_mem_segment x y t h0 h1

/-- The central geometric fact: a point lying on or above a lower-chain
edge and on or below an upper-chain edge (lexicographically within both)
belongs to the convex hull of the four edge endpoints. -/
theorem point_in_quad {a b c d q : Point}
    (haq : lexLe a q) (hqb : lexLe q b) (hab : 0 ≤ cross_product a b q)
    (hdq : lexLe d q) (hqc : lexLe q c) (hcd : 0 ≤ cross_product c d q) :
    q ∈ convexHull ℚ ({a, b, c, d} : Set Point) := by
  have hconv : Convex ℚ (convexHull ℚ ({a, b, c, d} : Set Point)) :=
    convex_convexHull ℚ _
  have hma : a ∈ convexHull ℚ ({a, b, c, d} : Set Point) :=
    subset_convexHull ℚ _ (by simp)
  have hmb : b ∈ convexHull ℚ ({a, b, c, d} : Set Point) :=
    subset_convexHull ℚ _ (by simp)
  have hmc : c ∈ convexHull ℚ ({a, b, c, d} : Set Point) :=
    subset_convexHull ℚ _ (by simp)
  have hmd : d ∈ convexHull ℚ ({a, b, c, d} : Set Point) :=
    subset_convexHull ℚ _ (by simp)
  by_cases hvab : a.1 = b.1
  · exact hconv.segment_subset hma hmb (mem_segment_vertical hvab haq hqb)
  by_cases hvdc : d.1 = c.1
  · exact hconv.segment_subset hmd hmc (mem_segment_vertical hvdc hdq hqc)
  have hab1 : a.1 < b.1 :=
    lt_of_le_of_ne (le_trans (lexLe_x haq) (lexLe_x hqb)) hvab
  have hdc1 : d.1 < c.1 :=
    lt_of_le_of_ne (le_trans (lexLe_x hdq) (lexLe_x hqc)) hvdc
  have haq1 : a.1 ≤ q.1 := lexLe_x haq
  have hqb1 : q.1 ≤ b.1 := lexLe_x hqb
  have hdq1 : d.1 ≤ q.1 := lexLe_x hdq
  have hqc1 : q.1 ≤ c.1 := lexLe_x hqc
  have hneab : b.1 - a.1 ≠ 0 := sub_ne_zero.mpr (ne_of_gt hab1)
  have hnedc : c.1 - d.1 ≠ 0 := sub_ne_zero.mpr (ne_of_gt hdc1)
  set tL : ℚ := (q.1 - a.1) / (b.1 - a.1) with htL
  set tU : ℚ := (c.1 - q.1) / (c.1 - d.1) with htU
  set L : Point := (1 - tL) • a + tL • b with hLdef
  set U : Point := (1 - tU) • c + tU • d with hUdef
  have htL0 : 0 ≤ tL := div_nonneg (by linarith) (by linarith)
  have htL1 : tL ≤ 1 := by rw [htL, div_le_one (by linarith)]; linarith
  have htU0 : 0 ≤ tU := div_nonneg (by linarith) (by linarith)
  have htU1 : tU ≤ 1 := by rw [htU, div_le_one (by linarith)]; linarith
  have hL1 : L.1 = q.1 := by
    rw [hLdef, comb_fst, htL]
    field_simp
    ring
  have hU1 : U.1 = q.1 := by
    rw [hUdef, comb_fst, htU]
    field_simp
    ring
  have hL2 : L.2 ≤ q.2 := by
    rw [← sub_nonneg]
    have key : q.2 - L.2 = cross_product a b q / (b.1 - a.1) := by
      rw [hLdef, comb_snd, htL]
      unfold cross_product
      field_simp
      ring
    rw [key]
    exact div_nonneg hab (by linarith)
  have hU2 : q.2 ≤ U.2 := by
    rw [← sub_nonneg]
    have key : U.2 - q.2 = cross_product c d q / (c.1 - d.1) := by
      rw [hUdef, comb_snd, htU]
      unfold cross_product
      field_simp
      ring
    rw [key]
    exact div_nonneg hcd (by linarith)
  have hLm : L ∈ convexHull ℚ ({a, b, c, d} : Set Point) :=
    hconv.segment_subset hma hmb (comb_mem_segment a b tL htL0 htL1)
  have hUm : U ∈ convexHull ℚ ({a, b, c, d} : Set Point) :=
    hconv.segment_subset hmc hmd (comb_mem_segment c d tU htU0 htU1)
  by_cases hLU : U.2 = L.2
  · have hq2 : q.2 = L.2 := le_antisymm (hLU ▸ hU2) hL2
    have : q = L := Prod.ext hL1.symm hq2
    rw [this]
    exact hLm
  · have hltLU : L.2 < U.2 := lt_of_le_of_ne (le_trans hL2 hU2) (Ne.symm hLU)
    have hneLU : U.2 - L.2 ≠ 0 := sub_ne_zero.mpr (ne_of_gt hltLU)
    set s : ℚ := (q.2 - L.2) / (U.2 - L.2) with hs
    have hs0 : 0 ≤ s := div_nonneg (by linarith) (by linarith)
    have hs1 : s ≤ 1 := by rw [hs, div_le_one (by linarith)]; linarith
    have : q = (1 - s) • L + s • U := by
      apply Prod.ext
      · rw [comb_fst, hL1, hU1]; ring
      · rw [comb_snd, hs]
        field_simp
        ring
    rw [this]
    exact hconv.segment_subset hLm hUm (comb_mem_segment L U s hs0 hs1)

/-! ### Assembling the chains into the hull -/

theorem mem_dropLast_or_getLast {α : Type} (l : List α) (x : α) (h : x ∈ l) :
    x ∈ l.dropLast ∨ l.getLast? = some x := by
  induction l with
  | nil => simp at h
  | cons a t ih =>
      match t with
      | [] =>
          right
          rw [List.mem_singleton.1 h]
          rfl
      | b :: t' =>
          rcases List.mem_cons.1 h with h₁ | h₁
          · left
            rw [h₁]
            show a ∈ a :: (b :: t').dropLast
            exact List.mem_cons_self _ _
          · rcases ih h₁ with h₂ | h₂
            · left
              show x ∈ a :: (b :: t').dropLast
              exact List.mem_cons_of_mem _ h₂
            · right
              rw [← h₂]
              simp [List.getLast?_cons]

theorem head_mem_dropLast {α : Type} (l : List α) (x : α)
    (h : l.head? = some x) (h2 : 2 ≤ l.length) : x ∈ l.dropLast := by
  match l with
  | [] => cases h
  | [a] => simp at h2
  | a :: b :: t =>
      injection h with h
      rw [h]
      show x ∈ x :: (b :: t).dropLast
      exact List.mem_cons_self _ _

theorem two_le_length_of_head_ne_last {α : Type} (l : List α) (x y : α)
    (hx : l.head? = some x) (hy : l.getLast? = some y) (hne : x ≠ y) :
    2 ≤ l.length := by
  match l with
  | [] => cases hx
  | [a] =>
      injection hx with hx
      injection hy with hy
      exact absurd (hx.symm.trans hy) hne
  | a :: b :: t => simp

/-- The head and the last element of a nonempty strictly increasing list
with at least two elements differ. -/
theorem pairwise_head_ne_last {l : List Point} (hpw : l.Pairwise lexLt)
    (h2 : 2 ≤ l.length) {x y : Point}
    (hx : l.head? = some x) (hy : l.getLast? = some y) : x ≠ y := by
  match l with
  | [] => cases hx
  | [a] => simp at h2
  | a :: b :: t =>
      injection hx with hx
      have hyl : y ∈ b :: t := by
        have : (b :: t).getLast? = some y := by
          rw [← hy]
          simp [List.getLast?_cons]
        exact List.mem_of_mem_getLast? this
      rcases hpw with _ | ⟨hfst, _⟩
      exact hx ▸ lexLt_ne (hfst y hyl)

/-- The lower-chain stack of the hull computation (reverse of the Python
`lower` list). -/
def lowerStack (points : List Point) : List Point :=
  (sortPts points).foldl push []

/-- The upper-chain stack of the hull computation (reverse of the Python
`upper` list). -/
def upperStack (points : List Point) : List Point :=
  (sortPts points).reverse.foldl push []

theorem convex_hull_main (points : List Point)
    (h3 : 3 ≤ points.length) (hp3 : 3 ≤ (sortPts points).length) :
    convex_hull points =
      (lowerStack points).reverse.dropLast ++ (upperStack points).reverse.dropLast := by
  unfold convex_hull
  rw [if_neg (by omega)]
  simp only []
  rw [if_neg (by omega)]
  rfl

theorem sortPts_pairwise_negRev (points : List Point) :
    ((sortPts points).reverse.map negPt).Pairwise lexLt := by
  rw [List.pairwise_map, List.pairwise_reverse]
  exact (sortPts_chain points).imp (fun h => lexLt_negPt.2 h)

theorem negPt_injective : Function.Injective negPt := by
  intro a b h
  rw [← negPt_negPt a, h, negPt_negPt]

theorem upperStack_negMap (points : List Point) :
    ((sortPts points).reverse.map negPt).foldl push [] =
      (upperStack points).map negPt := by
  unfold upperStack
  have h := foldl_push_negPt (sortPts points).reverse []
  simpa using h

theorem lowerStack_inv (points : List Point) (hne : sortPts points ≠ []) :
    ScanInv (sortPts points) (lowerStack points) :=
  scan_inv (sortPts points) (sortPts_chain points) hne

theorem upperStack_inv (points : List Point) (hne : sortPts points ≠ []) :
    ScanInv ((sortPts points).reverse.map negPt) ((upperStack points).map negPt) := by
  rw [← upperStack_negMap]
  exact scan_inv _ (sortPts_pairwise_negRev points) (by simp [hne])

theorem upperStack_head (points : List Point) (hne : sortPts points ≠ []) :
    (upperStack points).head? = (sortPts points).head? := by
  have h := (upperStack_inv points hne).head_eq
  rw [List.head?_map, List.getLast?_map, List.getLast?_reverse] at h
  exact Option.map_injective negPt_injective h

theorem upperStack_last (points : List Point) (hne : sortPts points ≠ []) :
    (upperStack points).getLast? = (sortPts points).getLast? := by
  have h := (upperStack_inv points hne).last_eq
  rw [List.getLast?_map, List.head?_map, List.head?_reverse] at h
  exact Option.map_injective negPt_injective h

theorem mem_upperStack {points : List Point} (hne : sortPts points ≠ [])
    {x : Point} (hx : x ∈ upperStack points) : x ∈ sortPts points := by
  have h := (upperStack_inv points hne).subset (negPt x) (List.mem_map_of_mem negPt hx)
  rw [List.mem_map] at h
  obtain ⟨y, hy, he⟩ := h
  rw [List.mem_reverse] at hy
  rwa [← negPt_injective he]

/-- Every element of either stack is a member of the hull output list. -/
theorem stack_mem_hull (points : List Point)
    (h3 : 3 ≤ points.length) (hp3 : 3 ≤ (sortPts points).length) :
    (∀ x ∈ lowerStack points, x ∈ convex_hull points) ∧
    (∀ x ∈ upperStack points, x ∈ convex_hull points) := by
  have hne : sortPts points ≠ [] := by
    intro hc; rw [hc] at hp3; simp at hp3
  have hinvL := lowerStack_inv points hne
  obtain ⟨p0, hp0⟩ : ∃ p0, (sortPts points).head? = some p0 := by
    cases hps : sortPts points with
    | nil => exact absurd hps hne
    | cons z zs => exact ⟨z, rfl⟩
  obtain ⟨M, hM⟩ : ∃ M, (sortPts points).getLast? = some M := by
    cases hps : sortPts points with
    | nil => exact absurd hps hne
    | cons z zs => exact ⟨(z :: zs).getLast (by simp), List.getLast?_eq_getLast _ _⟩
  have hp0M : p0 ≠ M :=
    pairwise_head_ne_last (sortPts_chain points) (by omega) hp0 hM
  have hlow_head : (lowerStack points).reverse.head? = some p0 := by
    rw [List.head?_reverse, hinvL.last_eq, hp0]
  have hlow_last : (lowerStack points).reverse.getLast? = some M := by
    rw [List.getLast?_reverse, hinvL.head_eq, hM]
  have hup_head : (upperStack points).reverse.head? = some M := by
    rw [List.head?_reverse, upperStack_last points hne, hM]
  have hup_last : (upperStack points).reverse.getLast? = some p0 := by
    rw [List.getLast?_reverse, upperStack_head points hne, hp0]
  have hlow_len : 2 ≤ (lowerStack points).reverse.length :=
    two_le_length_of_head_ne_last _ p0 M hlow_head hlow_last hp0M
  have hup_len : 2 ≤ (upperStack points).reverse.length :=
    two_le_length_of_head_ne_last _ M p0 hup_head hup_last (Ne.symm hp0M)
  have hhull := convex_hull_main points h3 hp3
  have hM_mem : M ∈ convex_hull points := by
    rw [hhull]
    exact List.mem_append_right _ (head_mem_dropLast _ M hup_head hup_len)
  have hp0_mem : p0 ∈ convex_hull points := by
    rw [hhull]
    exact List.mem_append_left _ (head_mem_dropLast _ p0 hlow_head hlow_len)
  constructor
  · intro x hx
    have hx' : x ∈ (lowerStack points).reverse := List.mem_reverse.2 hx
    rcases mem_dropLast_or_getLast _ x hx' with h | h
    · rw [hhull]
      exact List.mem_append_left _ h
    · have : x = M := by
        rw [hlow_last] at h
        injection h with h
        exact h.symm
      rw [this]
      exact hM_mem
  · intro x hx
    have hx' : x ∈ (upperStack points).reverse := List.mem_reverse.2 hx
    rcases mem_dropLast_or_getLast _ x hx' with h | h
    · rw [hhull]
      exact List.mem_append_right _ h
    · have : x = p0 := by
        rw [hup_last] at h
        injection h with h
        exact h.symm
      rw [this]
      exact hp0_mem

/-- No scan stack over a ≥2-element strictly increasing list is a
singleton: its top is the last input point and its bottom the first. -/
theorem lowerStack_ne_singleton (points : List Point)
    (hp2 : 2 ≤ (sortPts points).length) (hne : sortPts points ≠ []) :
    ∀ z, lowerStack points ≠ [z] := by
  intro z hc
  have h1 := (lowerStack_inv points hne).head_eq
  have h2 := (lowerStack_inv points hne).last_eq
  rw [hc] at h1 h2
  exact pairwise_head_ne_last (sortPts_chain points) hp2 h2.symm h1.symm rfl

theorem upperStack_ne_singleton (points : List Point)
    (hp2 : 2 ≤ (sortPts points).length) (hne : sortPts points ≠ []) :
    ∀ z, (upperStack points).map negPt ≠ [z] := by
  intro z hc
  have h1 := (upperStack_inv points hne).head_eq
  have h2 := (upperStack_inv points hne).last_eq
  rw [hc] at h1 h2
  refine pairwise_head_ne_last (sortPts_pairwise_negRev points) (by simp; omega)
    h2.symm h1.symm rfl

/-- C4: every input point lies in the convex hull (inside or on the
boundary) of the vertex set returned by `convexHull`. -/
theorem convex_hull_contains (points : List Point) :
    ∀ q ∈ points, q ∈ convexHull ℚ {x : Point | x ∈ convex_hull points} := by
  intro q hq
  by_cases h3 : points.length < 3
  · refine subset_convexHull ℚ _ ?_
    show q ∈ {x : Point | x ∈ convex_hull points}
    have : convex_hull points = points := by
      unfold convex_hull; rw [if_pos h3]
    rw [Set.mem_setOf_eq, this]
    exact hq
  by_cases hp3 : (sortPts points).length < 3
  · refine subset_convexHull ℚ _ ?_
    show q ∈ {x : Point | x ∈ convex_hull points}
    have : convex_hull points = sortPts points :=
      convex_hull_of_dedup_lt_three (by omega) (by rw [← sortPts_length]; exact hp3)
    rw [Set.mem_setOf_eq, this]
    exact mem_sortPts.2 hq
  · have h3' : 3 ≤ points.length := by omega
    have hp3' : 3 ≤ (sortPts points).length := by omega
    have hne : sortPts points ≠ [] := by
      intro hc; rw [hc] at hp3; simp at hp3
    have hqs : q ∈ sortPts points := mem_sortPts.2 hq
    have hmem := stack_mem_hull points h3' hp3'
    -- charge on the lower chain
    obtain ⟨prL, hprL, hchL⟩ :
        ∃ pr ∈ stackPairs (lowerStack points), Charged pr.1 pr.2 q := by
      rcases (lowerStack_inv points hne).above q hqs with h | h
      · exact h
      · exact absurd h (lowerStack_ne_singleton points (by omega) hne q)
    -- charge on the upper chain, transported through negation
    obtain ⟨prU, hprU, hULe1, hULe2, hUcr⟩ :
        ∃ pr ∈ stackPairs (upperStack points),
          lexLe q pr.1 ∧ lexLe pr.2 q ∧ 0 ≤ cross_product pr.1 pr.2 q := by
      have hqU : negPt q ∈ (sortPts points).reverse.map negPt :=
        List.mem_map_of_mem negPt (List.mem_reverse.2 hqs)
      rcases (upperStack_inv points hne).above (negPt q) hqU with h | h
      · obtain ⟨pr', hpr', hch'⟩ := h
        rw [stackPairs_map_negPt] at hpr'
        rw [List.mem_map] at hpr'
        obtain ⟨pr, hpr, he⟩ := hpr'
        refine ⟨pr, hpr, ?_, ?_, ?_⟩
        · have := hch'.1
          rw [← he] at this
          exact lexLe_negPt.1 (by
            rw [show (negPt pr.1, negPt pr.2).1 = negPt pr.1 from rfl] at this
            exact this)
        · have := hch'.2.1
          rw [← he] at this
          exact lexLe_negPt.1 (by
            rw [show (negPt pr.1, negPt pr.2).2 = negPt pr.2 from rfl] at this
            exact this)
        · have := hch'.2.2
          rw [← he] at this
          rw [show (negPt pr.1, negPt pr.2).1 = negPt pr.1 from rfl,
            show (negPt pr.1, negPt pr.2).2 = negPt pr.2 from rfl] at this
          rwa [cross_negPt] at this
      · exact absurd h (upperStack_ne_singleton points (by omega) hne (negPt q))
    have hquad := point_in_quad hchL.1 hchL.2.1 hchL.2.2 hULe2 hULe1 hUcr
    refine convexHull_mono ?_ hquad
    intro x hx
    have hmemL := stackPairs_mem hprL
    have hmemU := stackPairs_mem hprU
    rw [Set.mem_setOf_eq]
    rcases hx with rfl | hx
    · exact hmem.1 _ hmemL.1
    rcases hx with rfl | hx
    · exact hmem.1 _ hmemL.2
    rcases hx with rfl | hx
    · exact hmem.2 _ hmemU.1
    rw [Set.mem_singleton_iff.1 hx]
    exact hmem.2 _ hmemU.2

/-! ### Supporting lemmas for the spacing classifier -/

theorem spacingSorted_length (l : List Point) :
    (spacingSorted l).length = l.length := by
  unfold spacingSorted
  simp only []
  split
  · exact (List.perm_insertionSort _ l).length_eq
  · exact (List.perm_insertionSort _ l).length_eq

theorem spacingSegments_length (preds : List Point) (ct : String)
    (ppm ts td tsp tol : ℚ) :
    (spacingSegments preds ct ppm ts td tsp tol).length = preds.length - 1 := by
  unfold spacingSegments
  simp [spacingSorted_length]

theorem spacingSegments_get (preds : List Point) (ct : String)
    (ppm ts td tsp tol : ℚ) (i : ℕ)
    (hi : i < (spacingSegments preds ct ppm ts td tsp tol).length) :
    (spacingSegments preds ct ppm ts td tsp tol).get ⟨i, hi⟩ =
      mkSpacingInfo ct ppm ts td tsp tol i
        ((spacingSorted preds).getD i ((0:ℚ),(0:ℚ)))
        ((spacingSorted preds).getD (i+1) ((0:ℚ),(0:ℚ))) := by
  have hlen := spacingSegments_length preds ct ppm ts td tsp tol
  have hi' : i < preds.length - 1 := by omega
  have hs := spacingSorted_length preds
  have hzi : i < ((spacingSorted preds).zip (spacingSorted preds).tail).length := by
    simp; omega
  have hei : i < ((spacingSorted preds).zip (spacingSorted preds).tail).enum.length := by
    simpa using hzi
  have h1 : i < (spacingSorted preds).length := by omega
  have h2 : i + 1 < (spacingSorted preds).length := by omega
  have h2t : i < (spacingSorted preds).tail.length := by
    simp [List.length_tail]; omega
  unfold spacingSegments
  simp only [List.get_eq_getElem, List.getElem_map, List.getElem_enum, List.getElem_zip,
    List.getElem_tail]
  rw [List.getD_eq_getElem _ _ h1, List.getD_eq_getElem _ _ h2]

theorem process_spacing_check_eq_ok (preds : List Point) (ct : String)
    (ppm ts td tsp tol : ℚ) (h2 : 2 ≤ preds.length) (hp : 0 < ppm)
    (hall : ∀ s ∈ spacingSegments preds ct ppm ts td tsp tol, s.status.isSome) :
    process_spacing_check preds ct ppm ts td tsp tol =
      Except.ok (spacingSegments preds ct ppm ts td tsp tol) := by
  unfold process_spacing_check
  rw [if_neg (by push_neg; exact ⟨by omega, by exact hp⟩)]
  simp only []
  rw [if_pos]
  rw [List.all_eq_true]
  intro s hs
  simpa using hall s hs

theorem process_spacing_check_eq_error (preds : List Point) (ct : String)
    (ppm ts td tsp tol : ℚ) (h2 : 2 ≤ preds.length) (hp : 0 < ppm)
    (hnone : ∃ s ∈ spacingSegments preds ct ppm ts td tsp tol, s.status = none) :
    process_spacing_check preds ct ppm ts td tsp tol =
      Except.error "KeyError: status" := by
  unfold process_spacing_check
  rw [if_neg (by push_neg; exact ⟨by omega, by exact hp⟩)]
  simp only []
  rw [if_neg]
  rw [List.all_eq_true]
  push_neg
  obtain ⟨s, hs, hnone⟩ := hnone
  exact ⟨s, hs, by simp [hnone]⟩

theorem classify_slab_wall (mm : ℝ) (ts td tsp tol : ℚ) :
    (classify "slab_wall" mm ts td tsp tol).1 =
      if |mm - (ts : ℝ)| ≤ (tol : ℝ) then some "pass" else some "fail" := by
  unfold classify
  rw [if_pos rfl]
  split <;> simp

theorem classify_beam_column (mm : ℝ) (ts td tsp tol : ℚ) :
    (classify "beam_column" mm ts td tsp tol).1 =
      if |mm - (td : ℝ)| ≤ (tol : ℝ) then some "pass_dense"
      else if |mm - (tsp : ℝ)| ≤ (tol : ℝ) then some "pass_sparse"
      else some "fail" := by
  unfold classify
  rw [if_neg (by decide), if_pos rfl]
  split
  · simp
  · split <;> simp

theorem classify_other (ct : String) (mm : ℝ) (ts td tsp tol : ℚ)
    (h1 : ct ≠ "slab_wall") (h2 : ct ≠ "beam_column") :
    (classify ct mm ts td tsp tol).1 = none := by
  unfold classify
  rw [if_neg h1, if_neg h2]

theorem mkSpacingInfo_status (ct : String) (ppm ts td tsp tol : ℚ) (i : ℕ)
    (s e : Point) :
    (mkSpacingInfo ct ppm ts td tsp tol i s e).status =
      (classify ct (mmDist ppm s e) ts td tsp tol).1 := rfl

theorem segment_status (preds : List Point) (ct : String)
    (ppm ts td tsp tol : ℚ) (i : ℕ)
    (hi : i < (spacingSegments preds ct ppm ts td tsp tol).length) :
    ((spacingSegments preds ct ppm ts td tsp tol).get ⟨i, hi⟩).status =
      (classify ct
        (mmDist ppm ((spacingSorted preds).getD i ((0:ℚ),(0:ℚ)))
          ((spacingSorted preds).getD (i+1) ((0:ℚ),(0:ℚ)))) ts td tsp tol).1 := by
  rw [spacingSegments_get, mkSpacingInfo_status]

/-- `|mm - t| ≤ tol` is exactly the inclusive window `[t-tol, t+tol]`. -/
theorem window_iff (mm t tol : ℝ) :
    |mm - t| ≤ tol ↔ (t - tol ≤ mm ∧ mm ≤ t + tol) := by
  rw [abs_le]
  constructor <;> intro h <;> exact ⟨by linarith [h.1, h.2], by linarith [h.1, h.2]⟩

/-! ### Forward-chain turn machinery

The hull output lists its vertices in traversal order; `Turn3 l` says
every three consecutive entries of `l` make a strict left turn.  `last2`
extracts the final two entries and `pairsF` the forward adjacent pairs,
bridging the forward chain lists to the reversed stacks. -/

/-- Every three consecutive entries make a strict left turn. -/
def Turn3 : List Point → Prop
  | [] => True
  | [_] => True
  | [_, _] => True
  | a :: b :: c :: t => 0 < cross_product a b c ∧ Turn3 (b :: c :: t)

/-- The last two entries of a list, in order. -/
def last2 : List Point → Option (Point × Point)
  | [] => none
  | [_] => none
  | [x, y] => some (x, y)
  | _ :: y :: z :: t => last2 (y :: z :: t)

/-- Forward adjacent pairs of a list. -/
def pairsF : List Point → List (Point × Point)
  | [] => []
  | [_] => []
  | a :: b :: t => (a, b) :: pairsF (b :: t)

theorem turn3_tail {a : Point} {l : List Point} (h : Turn3 (a :: l)) : Turn3 l := by
  match l with
  | [] => exact trivial
  | [b] => exact trivial
  | b :: c :: t => exact h.2

theorem turn3_append_left : ∀ (A B : List Point), Turn3 (A ++ B) → Turn3 A
  | [], _, _ => trivial
  | [_], _, _ => trivial
  | [_, _], _, _ => trivial
  | a :: b :: c :: t, B, h => ⟨h.1, turn3_append_left (b :: c :: t) B h.2⟩

theorem last2_cons (a : Point) {l : List Point} (h : 2 ≤ l.length) :
    last2 (a :: l) = last2 l := by
  match l with
  | [] => simp at h
  | [_] => simp at h
  | y :: z :: t => rfl

theorem last2_append_pair : ∀ (A : List Point) (x y : Point),
    last2 (A ++ [x, y]) = some (x, y)
  | [], x, y => rfl
  | [a], x, y => rfl
  | a :: b :: t, x, y => by
      have ih := last2_append_pair (b :: t) x y
      have hlen : 2 ≤ ((b :: t) ++ [x, y]).length := by
        simp only [List.length_append, List.length_cons]
        omega
      rw [List.cons_append, last2_cons a hlen]
      exact ih

theorem last2_reverse (c b : Point) (t : List Point) :
    last2 ((c :: b :: t).reverse) = some (b, c) := by
  rw [List.reverse_cons, List.reverse_cons, List.append_assoc]
  simp only [List.singleton_append]
  exact last2_append_pair t.reverse b c

theorem turn3_snoc : ∀ (l : List Point) (c : Point), Turn3 l →
    (∀ x y, last2 l = some (x, y) → 0 < cross_product x y c) → Turn3 (l ++ [c])
  | [], c, _, _ => trivial
  | [_], c, _, _ => trivial
  | [a, b], c, _, hs => ⟨hs a b rfl, trivial⟩
  | a :: b :: b' :: t, c, h, hs =>
      ⟨h.1, turn3_snoc (b :: b' :: t) c h.2
        (fun x y hxy => hs x y (by rw [last2_cons a (by simp)]; exact hxy))⟩

theorem goodTurns_tail {c : Point} {t : List Point} (h : GoodTurns (c :: t)) :
    GoodTurns t := by
  intro tr htr
  apply h
  match t, htr with
  | b :: a :: t', htr => exact List.mem_cons_of_mem _ htr

theorem turn3_reverse_of_goodTurns : ∀ {st : List Point}, GoodTurns st → Turn3 st.reverse := by
  intro st
  induction st with
  | nil => intro _; exact trivial
  | cons c t ih =>
      intro h
      rw [List.reverse_cons]
      apply turn3_snoc
      · exact ih (goodTurns_tail h)
      · intro x y hxy
        match t, hxy with
        | b :: a :: t', hxy =>
            rw [last2_reverse] at hxy
            injection hxy with h2
            rw [Prod.mk.injEq] at h2
            rw [← h2.1, ← h2.2]
            exact h (a, b, c) (List.mem_cons_self _ _)

theorem turn3_glue : ∀ (A B : List Point) (y : Point),
    Turn3 A → Turn3 B → A.getLast? = some y → B.head? = some y →
    (∀ x z, last2 A = some (x, y) → B.tail.head? = some z →
      0 < cross_product x y z) →
    Turn3 (A ++ B.tail)
  | [], B, y, hA, hB, hlast, hhead, hseam => by simp at hlast
  | [a], B, y, hA, hB, hlast, hhead, hseam => by
      match B, hhead with
      | b :: t, hhead =>
        have ha : a = y := by simpa using hlast
        have hb : b = y := by simpa using hhead
        have he : ([a] ++ (b :: t).tail) = b :: t := by simp [ha, hb]
        rw [he]
        exact hB
  | [a, b], B, y, hA, hB, hlast, hhead, hseam => by
      match B, hhead with
      | h' :: t, hhead =>
        have hb : b = y := by simpa using hlast
        have hh : h' = y := by simpa using hhead
        subst hb
        subst hh
        match t with
        | [] => exact trivial
        | z :: t' =>
            refine ⟨?_, ?_⟩
            · exact hseam a z rfl rfl
            · exact hB
  | a :: b :: c :: t, B, y, hA, hB, hlast, hhead, hseam =>
      ⟨hA.1, turn3_glue (b :: c :: t) B y hA.2 hB
        (by rw [List.getLast?_cons_cons] at hlast; exact hlast)
        hhead
        (fun x z hx hz => hseam x z (by rw [last2_cons a (by simp)]; exact hx) hz)⟩

theorem pairsF_snoc2 : ∀ (A : List Point) (x y : Point),
    pairsF (A ++ [x, y]) = pairsF (A ++ [x]) ++ [(x, y)]
  | [], x, y => rfl
  | [a], x, y => rfl
  | a :: b :: t, x, y => by
      have ih := pairsF_snoc2 (b :: t) x y
      show (a, b) :: pairsF ((b :: t) ++ [x, y]) =
        ((a, b) :: pairsF ((b :: t) ++ [x])) ++ [(x, y)]
      rw [ih]
      rfl

theorem stackPairs_rev : ∀ (st : List Point), stackPairs st = (pairsF st.reverse).reverse
  | [] => rfl
  | [_] => rfl
  | b :: a :: t => by
      have ih := stackPairs_rev (a :: t)
      have h2 : (a :: t).reverse = t.reverse ++ [a] := by rw [List.reverse_cons]
      show (a, b) :: stackPairs (a :: t) = (pairsF (b :: a :: t).reverse).reverse
      rw [List.reverse_cons, h2, List.append_assoc]
      simp only [List.singleton_append]
      rw [pairsF_snoc2 t.reverse a b, List.reverse_append, ← h2, ← ih]
      rfl

theorem mem_stackPairs_of_rev {st : List Point} {pr : Point × Point}
    (h : pr ∈ pairsF st.reverse) : pr ∈ stackPairs st := by
  rw [stackPairs_rev]
  exact List.mem_reverse.2 h

theorem pairsF_of_last2 : ∀ {l : List Point} {x y : Point},
    last2 l = some (x, y) → (x, y) ∈ pairsF l
  | [], x, y, h => by simp [last2] at h
  | [a], x, y, h => by simp [last2] at h
  | [a, b], x, y, h => by
      have h2 : (a, b) = (x, y) := by
        have : some (a, b) = some (x, y) := h
        injection this
      rw [Prod.mk.injEq] at h2
      obtain ⟨rfl, rfl⟩ := h2
      exact List.mem_cons_self _ _
  | a :: b :: c :: t, x, y, h =>
      List.mem_cons_of_mem _ (pairsF_of_last2 (l := b :: c :: t) h)

theorem last2_append (A : List Point) {B : List Point} (h : 2 ≤ B.length) :
    last2 (A ++ B) = last2 B := by
  induction A with
  | nil => rfl
  | cons a A ih =>
      have hlen : 2 ≤ (A ++ B).length := by
        rw [List.length_append]
        omega
      rw [List.cons_append, last2_cons a hlen, ih]

theorem last2_append_single : ∀ (A : List Point) (y x : Point),
    A.getLast? = some y → last2 (A ++ [x]) = some (y, x)
  | [], y, x, h => by simp at h
  | [a], y, x, h => by
      have ha : a = y := by simpa using h
      rw [ha]
      rfl
  | a :: b :: t, y, x, h => by
      have h' : (b :: t).getLast? = some y := by
        rw [List.getLast?_cons_cons] at h
        exact h
      have ih := last2_append_single (b :: t) y x h'
      have hlen : 2 ≤ ((b :: t) ++ [x]).length := by
        rw [List.length_append]
        simp only [List.length_cons]
        omega
      rw [List.cons_append, last2_cons a hlen]
      exact ih

theorem shape_of_head_len : ∀ {l : List Point} {x : Point},
    l.head? = some x → 2 ≤ l.length → ∃ y t, l = x :: y :: t
  | [], x, hh, hl => by simp at hl
  | [a], x, hh, hl => by simp at hl
  | a :: b :: t, x, hh, hl => by
      have ha : a = x := by simpa using hh
      exact ⟨b, t, by rw [ha]⟩

theorem stackTriples_map_negPt : ∀ (st : List Point),
    stackTriples (st.map negPt) =
      (stackTriples st).map (fun tr => (negPt tr.1, negPt tr.2.1, negPt tr.2.2)) := by
  intro st
  induction st with
  | nil => rfl
  | cons c rest ih =>
      match rest with
      | [] => rfl
      | [b] => rfl
      | b :: a :: t =>
          show stackTriples (negPt c :: negPt b :: negPt a :: t.map negPt) = _
          rw [stackTriples]
          rw [show (negPt b :: negPt a :: t.map negPt) = (b :: a :: t).map negPt from rfl, ih]
          rfl

theorem upperStack_goodTurns (points : List Point) (hne : sortPts points ≠ []) :
    GoodTurns (upperStack points) := by
  intro tr htr
  have hmem : (negPt tr.1, negPt tr.2.1, negPt tr.2.2) ∈
      stackTriples ((upperStack points).map negPt) := by
    rw [stackTriples_map_negPt]
    exact List.mem_map_of_mem _ htr
  have h := (upperStack_inv points hne).turns _ hmem
  simpa [cross_negPt] using h

theorem upperStack_edges (points : List Point) (hne : sortPts points ≠ [])
    {pr : Point × Point} (hpr : pr ∈ stackPairs (upperStack points)) :
    ∀ q ∈ sortPts points, 0 ≤ cross_product pr.1 pr.2 q := by
  intro q hq
  have hpr' : (negPt pr.1, negPt pr.2) ∈ stackPairs ((upperStack points).map negPt) := by
    rw [stackPairs_map_negPt]
    exact List.mem_map_of_mem _ hpr
  have hq' : negPt q ∈ (sortPts points).reverse.map negPt :=
    List.mem_map_of_mem _ (List.mem_reverse.2 hq)
  have h := (upperStack_inv points hne).edges _ hpr' _ hq'
  simpa [cross_negPt] using h

theorem upperStack_pairwise (points : List Point) (hne : sortPts points ≠ []) :
    (upperStack points).Pairwise lexLt := by
  have h := (upperStack_inv points hne).sorted
  unfold StkSorted at h
  rw [List.pairwise_map] at h
  exact h.imp (fun hxy => lexLt_negPt.1 hxy)

theorem head_lexLe_mem {ps : List Point} {p0 : Point} (hpw : ps.Pairwise lexLt)
    (hh : ps.head? = some p0) : ∀ q ∈ ps, lexLe p0 q := by
  match ps, hh, hpw with
  | x :: t, hh, hpw =>
    have hx : x = p0 := by simpa using hh
    subst hx
    intro q hq
    rcases List.mem_cons.1 hq with rfl | hq
    · exact lexLe_refl _
    · exact lexLe_of_lexLt ((List.pairwise_cons.1 hpw).1 q hq)

theorem cross_swap01 (o a b : Point) : cross_product a o b = - cross_product o a b := by
  unfold cross_product
  ring

/-- Strictness at the seam between the two chains.  If the edge `z → M`
keeps every point of `ps` on its left, the edge `M → u₁` likewise, `z`
and `u₁` both precede the common endpoint `M` lexicographically, a
strict turn witness exists at `z` (resp. `u₁`) whenever it differs from
the minimum `p0`, and `z`, `u₁` are not both `p0`, then `(z, M, u₁)` is
a strict left turn. -/
theorem seam_generic (ps : List Point) (hpw : ps.Pairwise lexLt)
    (p0 z M u₁ : Point) (hh : ps.head? = some p0)
    (hzM : lexLt z M) (hu₁M : lexLt u₁ M)
    (hzm : z ∈ ps) (hu₁m : u₁ ∈ ps)
    (hedgeL : ∀ q ∈ ps, 0 ≤ cross_product z M q)
    (hedgeU : ∀ q ∈ ps, 0 ≤ cross_product M u₁ q)
    (hlturn : z ≠ p0 → ∃ w, w ∈ ps ∧ lexLt w z ∧ 0 < cross_product w z M)
    (huturn : u₁ ≠ p0 → ∃ u₂, u₂ ∈ ps ∧ lexLt u₂ u₁ ∧ 0 < cross_product M u₁ u₂)
    (hor : z ≠ p0 ∨ u₁ ≠ p0) :
    0 < cross_product z M u₁ := by
  rcases lt_or_le 0 (cross_product z M u₁) with hpos | hle
  · exact hpos
  have hcol : cross_product z M u₁ = 0 := le_antisymm hle (hedgeL u₁ hu₁m)
  exfalso
  have hp0le : ∀ q ∈ ps, lexLe p0 q := head_lexLe_mem hpw hh
  have hne : u₁ ≠ z := by
    intro hc
    have hall : ∀ q ∈ ps, cross_product z M q = 0 := by
      intro q hq
      have h1 := hedgeL q hq
      have h2 := hedgeU q hq
      rw [hc, cross_swap01 z M q] at h2
      linarith
    rcases hor with hz | hu
    · obtain ⟨w, hwm, hwz, hturn⟩ := hlturn hz
      have h0 := hall w hwm
      rw [cross_cyclic w z M] at h0
      linarith
    · obtain ⟨u₂, hu₂m, hu₂lt, hturn⟩ := huturn hu
      have h0 := hall u₂ hu₂m
      rw [hc, cross_swap01 z M u₂] at hturn
      linarith
  rcases lexLe_total_pair z u₁ with hzu | huz
  · have hzu' : lexLt z u₁ := lexLt_of_lexLe_ne hzu (fun e => hne e.symm)
    have hu₁p0 : u₁ ≠ p0 := by
      intro hc
      have h1 : lexLt p0 u₁ := lexLe_lexLt_trans (hp0le z hzm) hzu'
      rw [hc] at h1
      exact lexLt_irrefl _ h1
    obtain ⟨u₂, hu₂m, hu₂lt, hturn⟩ := huturn hu₁p0
    have hE : 0 ≤ cross_product z M u₂ := hedgeL u₂ hu₂m
    have hid : cross_product M u₁ u₂ * (M.1 - z.1) + cross_product z M u₂ * (M.1 - u₁.1)
        = cross_product z M u₁ * (M.1 - u₂.1) := by
      unfold cross_product
      ring
    rw [hcol, zero_mul] at hid
    have hxz : z.1 ≤ M.1 := lexLt_x hzM
    have hxu : u₁.1 ≤ M.1 := lexLt_x hu₁M
    have h1 : 0 ≤ cross_product M u₁ u₂ * (M.1 - z.1) :=
      mul_nonneg (le_of_lt hturn) (by linarith)
    have h2 : 0 ≤ cross_product z M u₂ * (M.1 - u₁.1) := mul_nonneg hE (by linarith)
    have hz1 : cross_product M u₁ u₂ * (M.1 - z.1) = 0 := by linarith
    have hMz : M.1 = z.1 := by
      rcases mul_eq_zero.1 hz1 with hcc | hcc
      · exact absurd hcc (ne_of_gt hturn)
      · linarith
    have hu₁x : u₁.1 = M.1 := le_antisymm hxu (by
      have := lexLt_x hzu'
      linarith)
    have hu₁y : u₁.2 < M.2 := by
      rcases (hu₁M : u₁.1 < M.1 ∨ (u₁.1 = M.1 ∧ u₁.2 < M.2)) with hlt | ⟨_, hlt⟩
      · rw [hu₁x] at hlt
        exact absurd hlt (lt_irrefl _)
      · exact hlt
    have hu₂x : u₂.1 ≤ u₁.1 := lexLt_x hu₂lt
    have hexp : cross_product M u₁ u₂ = (M.2 - u₁.2) * (u₂.1 - M.1) := by
      unfold cross_product
      rw [hu₁x]
      ring
    rw [hexp] at hturn
    nlinarith [hturn, hu₁y, hu₂x, hu₁x]
  · have huz' : lexLt u₁ z := lexLt_of_lexLe_ne huz hne
    have hzp0 : z ≠ p0 := by
      intro hc
      have h1 : lexLt p0 z := lexLe_lexLt_trans (hp0le u₁ hu₁m) huz'
      rw [hc] at h1
      exact lexLt_irrefl _ h1
    obtain ⟨w, hwm, hwz, hturn⟩ := hlturn hzp0
    have hE : 0 ≤ cross_product M u₁ w := hedgeU w hwm
    have hturn' : 0 < cross_product z M w := by
      rw [cross_cyclic w z M]
      exact hturn
    have hid : cross_product M u₁ w * (M.1 - z.1) + cross_product z M w * (M.1 - u₁.1)
        = cross_product z M u₁ * (M.1 - w.1) := by
      unfold cross_product
      ring
    rw [hcol, zero_mul] at hid
    have hxz : z.1 ≤ M.1 := lexLt_x hzM
    have hxu : u₁.1 ≤ z.1 := lexLt_x huz'
    have h1 : 0 ≤ cross_product M u₁ w * (M.1 - z.1) := mul_nonneg hE (by linarith)
    have h2 : 0 ≤ cross_product z M w * (M.1 - u₁.1) :=
      mul_nonneg (le_of_lt hturn') (by linarith)
    have hz2 : cross_product z M w * (M.1 - u₁.1) = 0 := by linarith
    have hMu : M.1 = u₁.1 := by
      rcases mul_eq_zero.1 hz2 with hcc | hcc
      · exact absurd hcc (ne_of_gt hturn')
      · linarith
    have hzx : z.1 = M.1 := by linarith
    have hzy : z.2 < M.2 := by
      rcases (hzM : z.1 < M.1 ∨ (z.1 = M.1 ∧ z.2 < M.2)) with hlt | ⟨_, hlt⟩
      · rw [hzx] at hlt
        exact absurd hlt (lt_irrefl _)
      · exact hlt
    have hu₁y : u₁.2 < M.2 := by
      rcases (hu₁M : u₁.1 < M.1 ∨ (u₁.1 = M.1 ∧ u₁.2 < M.2)) with hlt | ⟨_, hlt⟩
      · rw [← hMu] at hlt
        exact absurd hlt (lt_irrefl _)
      · exact hlt
    have he1 : cross_product z M w = (M.1 - w.1) * (M.2 - z.2) := by
      unfold cross_product
      rw [hzx]
      ring
    have he2 : cross_product M u₁ w = (M.2 - u₁.2) * (w.1 - M.1) := by
      unfold cross_product
      rw [← hMu]
      ring
    rw [he1] at hturn'
    rw [he2] at hE
    nlinarith [hturn', hE, hzy, hu₁y]

/-- The doubled hull cycle `lower ++ upper.tail ++ lower.tail`, read as
forward chain lists, turns strictly left everywhere: both chains have
strict turns internally and the two seams are strict. -/
theorem turn3_big (points : List Point)
    (hp3 : 3 ≤ (sortPts points).length)
    (hlen5 : 5 ≤ (lowerStack points).length + (upperStack points).length) :
    Turn3 ((lowerStack points).reverse ++ ((upperStack points).reverse).tail
      ++ ((lowerStack points).reverse).tail) := by
  have hne : sortPts points ≠ [] := by
    intro hc
    rw [hc] at hp3
    simp at hp3
  have hinvL := lowerStack_inv points hne
  have hchain := sortPts_chain points
  obtain ⟨p0, hp0⟩ : ∃ p0, (sortPts points).head? = some p0 := by
    cases hps : sortPts points with
    | nil => exact absurd hps hne
    | cons a t => exact ⟨a, rfl⟩
  obtain ⟨M, hM⟩ : ∃ M, (sortPts points).getLast? = some M := by
    cases hps : sortPts points with
    | nil => exact absurd hps hne
    | cons a t => exact ⟨(a :: t).getLast (by simp), List.getLast?_eq_getLast _ _⟩
  have hp0M : p0 ≠ M := pairwise_head_ne_last hchain (by omega) hp0 hM
  have hlow_head : (lowerStack points).reverse.head? = some p0 := by
    rw [List.head?_reverse, hinvL.last_eq, hp0]
  have hlow_last : (lowerStack points).reverse.getLast? = some M := by
    rw [List.getLast?_reverse, hinvL.head_eq, hM]
  have hup_head : (upperStack points).reverse.head? = some M := by
    rw [List.head?_reverse, upperStack_last points hne, hM]
  have hup_last : (upperStack points).reverse.getLast? = some p0 := by
    rw [List.getLast?_reverse, upperStack_head points hne, hp0]
  have hlow_len : 2 ≤ (lowerStack points).reverse.length :=
    two_le_length_of_head_ne_last _ p0 M hlow_head hlow_last hp0M
  have hup_len : 2 ≤ (upperStack points).reverse.length :=
    two_le_length_of_head_ne_last _ M p0 hup_head hup_last (Ne.symm hp0M)
  obtain ⟨v₁, restL, hlowshape⟩ := shape_of_head_len hlow_head hlow_len
  obtain ⟨u₁, restU, hupshape⟩ := shape_of_head_len hup_head hup_len
  have hstL_head : (lowerStack points).head? = some M := by
    rw [hinvL.head_eq, hM]
  have hstU_head : (upperStack points).head? = some p0 := by
    rw [upperStack_head points hne, hp0]
  have hstL_len : 2 ≤ (lowerStack points).length := by
    rw [← List.length_reverse]
    exact hlow_len
  have hstU_len : 2 ≤ (upperStack points).length := by
    rw [← List.length_reverse]
    exact hup_len
  obtain ⟨z, restL2, hstLshape⟩ := shape_of_head_len hstL_head hstL_len
  obtain ⟨w, restU2, hstUshape⟩ := shape_of_head_len hstU_head hstU_len
  have hlowPW : ((lowerStack points).reverse).Pairwise lexLt := by
    rw [List.pairwise_reverse]
    exact hinvL.sorted
  have hupPW : ((upperStack points).reverse).Pairwise (fun x y => lexLt y x) := by
    rw [List.pairwise_reverse]
    exact upperStack_pairwise points hne
  have hstUPW := upperStack_pairwise points hne
  have hT3L : Turn3 ((lowerStack points).reverse) :=
    turn3_reverse_of_goodTurns hinvL.turns
  have hT3U : Turn3 ((upperStack points).reverse) :=
    turn3_reverse_of_goodTurns (upperStack_goodTurns points hne)
  -- seam 1 data: `z` (stack-second of the lower chain), `M`, `u₁`
  have hzM : lexLt z M := by
    have h : List.Pairwise (fun x y => lexLt y x) (M :: z :: restL2) := by
      rw [← hstLshape]
      exact hinvL.sorted
    exact (List.pairwise_cons.1 h).1 z (List.mem_cons_self _ _)
  have hu₁M : lexLt u₁ M := by
    have h := hupPW
    rw [hupshape] at h
    exact (List.pairwise_cons.1 h).1 u₁ (List.mem_cons_self _ _)
  have hzm : z ∈ sortPts points := by
    refine hinvL.subset z ?_
    rw [hstLshape]
    exact List.mem_cons_of_mem _ (List.mem_cons_self _ _)
  have hu₁m : u₁ ∈ sortPts points := by
    apply mem_upperStack hne
    rw [← List.mem_reverse, hupshape]
    exact List.mem_cons_of_mem _ (List.mem_cons_self _ _)
  have hedgeL : ∀ q ∈ sortPts points, 0 ≤ cross_product z M q := by
    intro q hq
    have hpr : ((z, M) : Point × Point) ∈ stackPairs (lowerStack points) := by
      rw [hstLshape]
      show ((z, M) : Point × Point) ∈ (z, M) :: stackPairs (z :: restL2)
      exact List.mem_cons_self _ _
    exact hinvL.edges _ hpr q hq
  have hedgeU : ∀ q ∈ sortPts points, 0 ≤ cross_product M u₁ q := by
    have hpr : ((M, u₁) : Point × Point) ∈ stackPairs (upperStack points) := by
      apply mem_stackPairs_of_rev
      rw [hupshape]
      show ((M, u₁) : Point × Point) ∈ (M, u₁) :: pairsF (u₁ :: restU)
      exact List.mem_cons_self _ _
    intro q hq
    exact upperStack_edges points hne hpr q hq
  have hlturn : z ≠ p0 → ∃ w', w' ∈ sortPts points ∧ lexLt w' z ∧
      0 < cross_product w' z M := by
    intro hzp0
    cases hr2 : restL2 with
    | nil =>
        exfalso
        have h := hinvL.last_eq
        rw [hstLshape, hr2, hp0] at h
        have : z = p0 := by simpa using h
        exact hzp0 this
    | cons w' restL3 =>
        refine ⟨w', ?_, ?_, ?_⟩
        · refine hinvL.subset w' ?_
          rw [hstLshape, hr2]
          exact List.mem_cons_of_mem _ (List.mem_cons_of_mem _ (List.mem_cons_self _ _))
        · have h : List.Pairwise (fun x y => lexLt y x) (M :: z :: w' :: restL3) := by
            rw [← hr2, ← hstLshape]
            exact hinvL.sorted
          exact (List.pairwise_cons.1 (List.pairwise_cons.1 h).2).1 w' (List.mem_cons_self _ _)
        · have hmem : ((w', z, M) : Point × Point × Point) ∈
              stackTriples (lowerStack points) := by
            rw [hstLshape, hr2]
            show ((w', z, M) : Point × Point × Point) ∈
              (w', z, M) :: stackTriples (z :: w' :: restL3)
            exact List.mem_cons_self _ _
          exact hinvL.turns _ hmem
  have huturn : u₁ ≠ p0 → ∃ u₂, u₂ ∈ sortPts points ∧ lexLt u₂ u₁ ∧
      0 < cross_product M u₁ u₂ := by
    intro hu₁p0
    cases hrU : restU with
    | nil =>
        exfalso
        have h := hup_last
        rw [hupshape, hrU] at h
        have : u₁ = p0 := by simpa using h
        exact hu₁p0 this
    | cons u₂ restU3 =>
        refine ⟨u₂, ?_, ?_, ?_⟩
        · apply mem_upperStack hne
          rw [← List.mem_reverse, hupshape, hrU]
          exact List.mem_cons_of_mem _ (List.mem_cons_of_mem _ (List.mem_cons_self _ _))
        · have h : List.Pairwise (fun x y => lexLt y x) (M :: u₁ :: u₂ :: restU3) := by
            rw [← hrU, ← hupshape]
            exact hupPW
          exact (List.pairwise_cons.1 (List.pairwise_cons.1 h).2).1 u₂ (List.mem_cons_self _ _)
        · have h := hT3U
          rw [hupshape, hrU] at h
          exact h.1
  have hor : z ≠ p0 ∨ u₁ ≠ p0 := by
    rcases le_or_lt 3 (lowerStack points).length with h3L | h3L
    · left
      intro hc
      cases hr2 : restL2 with
      | nil =>
          rw [hstLshape, hr2] at h3L
          simp at h3L
      | cons r t =>
          have h := hinvL.last_eq
          rw [hstLshape, hr2, hp0, List.getLast?_cons_cons, List.getLast?_cons_cons] at h
          have hmem : p0 ∈ r :: t := List.mem_of_mem_getLast? h
          have hsorted : List.Pairwise (fun x y => lexLt y x) (M :: z :: r :: t) := by
            rw [← hr2, ← hstLshape]
            exact hinvL.sorted
          have h2 := (List.pairwise_cons.1 (List.pairwise_cons.1 hsorted).2).1 p0 hmem
          rw [hc] at h2
          exact lexLt_irrefl _ h2
    · right
      have h3U : 3 ≤ (upperStack points).length := by omega
      intro hc
      cases hrU : restU with
      | nil =>
          rw [← List.length_reverse, hupshape, hrU] at h3U
          simp at h3U
      | cons r t =>
          have h := hup_last
          rw [hupshape, hrU, List.getLast?_cons_cons, List.getLast?_cons_cons] at h
          have hmem : p0 ∈ r :: t := List.mem_of_mem_getLast? h
          have hsorted : List.Pairwise (fun x y => lexLt y x) (M :: u₁ :: r :: t) := by
            rw [← hrU, ← hupshape]
            exact hupPW
          have h2 := (List.pairwise_cons.1 (List.pairwise_cons.1 hsorted).2).1 p0 hmem
          rw [hc] at h2
          exact lexLt_irrefl _ h2
  have hseam1 : 0 < cross_product z M u₁ :=
    seam_generic (sortPts points) hchain p0 z M u₁ hp0 hzM hu₁M hzm hu₁m
      hedgeL hedgeU hlturn huturn hor
  -- seam 2 via the negated configuration
  have hchainN := sortPts_pairwise_negRev points
  have hheadN : ((sortPts points).reverse.map negPt).head? = some (negPt M) := by
    rw [List.head?_map, List.head?_reverse, hM]
    rfl
  have hmemN : ∀ x, x ∈ sortPts points → negPt x ∈ (sortPts points).reverse.map negPt :=
    fun x hx => List.mem_map_of_mem _ (List.mem_reverse.2 hx)
  have hwps : w ∈ sortPts points := by
    apply mem_upperStack hne
    rw [hstUshape]
    exact List.mem_cons_of_mem _ (List.mem_cons_self _ _)
  have hv₁ps : v₁ ∈ sortPts points := by
    refine hinvL.subset v₁ ?_
    rw [← List.mem_reverse, hlowshape]
    exact List.mem_cons_of_mem _ (List.mem_cons_self _ _)
  have hp0w : lexLt p0 w := by
    have h := hstUPW
    rw [hstUshape] at h
    exact (List.pairwise_cons.1 h).1 w (List.mem_cons_self _ _)
  have hp0v₁ : lexLt p0 v₁ := by
    have h := hlowPW
    rw [hlowshape] at h
    exact (List.pairwise_cons.1 h).1 v₁ (List.mem_cons_self _ _)
  have hWp0 : ∀ q ∈ sortPts points, 0 ≤ cross_product w p0 q := by
    have hpr : ((w, p0) : Point × Point) ∈ stackPairs (upperStack points) := by
      rw [hstUshape]
      show ((w, p0) : Point × Point) ∈ (w, p0) :: stackPairs (w :: restU2)
      exact List.mem_cons_self _ _
    intro q hq
    exact upperStack_edges points hne hpr q hq
  have hP0v : ∀ q ∈ sortPts points, 0 ≤ cross_product p0 v₁ q := by
    have hpr : ((p0, v₁) : Point × Point) ∈ stackPairs (lowerStack points) := by
      apply mem_stackPairs_of_rev
      rw [hlowshape]
      show ((p0, v₁) : Point × Point) ∈ (p0, v₁) :: pairsF (v₁ :: restL)
      exact List.mem_cons_self _ _
    intro q hq
    exact hinvL.edges _ hpr q hq
  have hlturnN : negPt w ≠ negPt M →
      ∃ w', w' ∈ (sortPts points).reverse.map negPt ∧ lexLt w' (negPt w) ∧
        0 < cross_product w' (negPt w) (negPt p0) := by
    intro hneq
    have hwM : w ≠ M := fun e => hneq (by rw [e])
    cases hrU2 : restU2 with
    | nil =>
        exfalso
        have h : (upperStack points).getLast? = some M := by
          rw [upperStack_last points hne, hM]
        rw [hstUshape, hrU2] at h
        have : w = M := by simpa using h
        exact hwM this
    | cons x restU3 =>
        refine ⟨negPt x, hmemN x ?_, ?_, ?_⟩
        · apply mem_upperStack hne
          rw [hstUshape, hrU2]
          exact List.mem_cons_of_mem _ (List.mem_cons_of_mem _ (List.mem_cons_self _ _))
        · apply lexLt_negPt.2
          have h : List.Pairwise lexLt (p0 :: w :: x :: restU3) := by
            rw [← hrU2, ← hstUshape]
            exact hstUPW
          exact (List.pairwise_cons.1 (List.pairwise_cons.1 h).2).1 x (List.mem_cons_self _ _)
        · rw [cross_negPt]
          have hmem : ((x, w, p0) : Point × Point × Point) ∈
              stackTriples (upperStack points) := by
            rw [hstUshape, hrU2]
            show ((x, w, p0) : Point × Point × Point) ∈
              (x, w, p0) :: stackTriples (w :: x :: restU3)
            exact List.mem_cons_self _ _
          exact upperStack_goodTurns points hne _ hmem
  have huturnN : negPt v₁ ≠ negPt M →
      ∃ u₂', u₂' ∈ (sortPts points).reverse.map negPt ∧ lexLt u₂' (negPt v₁) ∧
        0 < cross_product (negPt p0) (negPt v₁) u₂' := by
    intro hneq
    have hvM : v₁ ≠ M := fun e => hneq (by rw [e])
    cases hrL : restL with
    | nil =>
        exfalso
        have h := hlow_last
        rw [hlowshape, hrL] at h
        have : v₁ = M := by simpa using h
        exact hvM this
    | cons v₂ restL4 =>
        refine ⟨negPt v₂, hmemN v₂ ?_, ?_, ?_⟩
        · refine hinvL.subset v₂ ?_
          rw [← List.mem_reverse, hlowshape, hrL]
          exact List.mem_cons_of_mem _ (List.mem_cons_of_mem _ (List.mem_cons_self _ _))
        · apply lexLt_negPt.2
          have h : List.Pairwise lexLt (p0 :: v₁ :: v₂ :: restL4) := by
            rw [← hrL, ← hlowshape]
            exact hlowPW
          exact (List.pairwise_cons.1 (List.pairwise_cons.1 h).2).1 v₂ (List.mem_cons_self _ _)
        · rw [cross_negPt]
          have h := hT3L
          rw [hlowshape, hrL] at h
          exact h.1
  have horN : negPt w ≠ negPt M ∨ negPt v₁ ≠ negPt M := by
    rcases le_or_lt 3 (upperStack points).length with h3U | h3U
    · left
      intro hc
      have hwM : w = M := negPt_injective hc
      cases hrU2 : restU2 with
      | nil =>
          rw [hstUshape, hrU2] at h3U
          simp at h3U
      | cons x t =>
          have h : (upperStack points).getLast? = some M := by
            rw [upperStack_last points hne, hM]
          rw [hstUshape, hrU2, List.getLast?_cons_cons, List.getLast?_cons_cons] at h
          have hmem : M ∈ x :: t := List.mem_of_mem_getLast? h
          have hsorted : List.Pairwise lexLt (p0 :: w :: x :: t) := by
            rw [← hrU2, ← hstUshape]
            exact hstUPW
          have h2 := (List.pairwise_cons.1 (List.pairwise_cons.1 hsorted).2).1 M hmem
          rw [hwM] at h2
          exact lexLt_irrefl _ h2
    · right
      have h3L : 3 ≤ (lowerStack points).length := by omega
      intro hc
      have hvM : v₁ = M := negPt_injective hc
      cases hrL : restL with
      | nil =>
          rw [← List.length_reverse, hlowshape, hrL] at h3L
          simp at h3L
      | cons r t =>
          have h := hlow_last
          rw [hlowshape, hrL, List.getLast?_cons_cons, List.getLast?_cons_cons] at h
          have hmem : M ∈ r :: t := List.mem_of_mem_getLast? h
          have hsorted : List.Pairwise lexLt (p0 :: v₁ :: r :: t) := by
            rw [← hrL, ← hlowshape]
            exact hlowPW
          have h2 := (List.pairwise_cons.1 (List.pairwise_cons.1 hsorted).2).1 M hmem
          rw [← hvM] at h2
          exact lexLt_irrefl _ h2
  have hseam2N : 0 < cross_product (negPt w) (negPt p0) (negPt v₁) := by
    refine seam_generic ((sortPts points).reverse.map negPt) hchainN (negPt M)
      (negPt w) (negPt p0) (negPt v₁) hheadN ?_ ?_ (hmemN w hwps) (hmemN v₁ hv₁ps)
      ?_ ?_ hlturnN huturnN horN
    · exact lexLt_negPt.2 hp0w
    · exact lexLt_negPt.2 hp0v₁
    · intro q hq
      rw [List.mem_map] at hq
      obtain ⟨q0, hq0, rfl⟩ := hq
      rw [cross_negPt]
      rw [List.mem_reverse] at hq0
      exact hWp0 q0 hq0
    · intro q hq
      rw [List.mem_map] at hq
      obtain ⟨q0, hq0, rfl⟩ := hq
      rw [cross_negPt]
      rw [List.mem_reverse] at hq0
      exact hP0v q0 hq0
  have hseam2 : 0 < cross_product w p0 v₁ := by
    rw [← cross_negPt w p0 v₁]
    exact hseam2N
  -- glue the chains along both seams
  have hglue1 : Turn3 ((lowerStack points).reverse ++ ((upperStack points).reverse).tail) := by
    refine turn3_glue _ _ M hT3L hT3U hlow_last hup_head ?_
    intro x zz hx hz
    have hl2 : last2 ((lowerStack points).reverse) = some (z, M) := by
      rw [hstLshape]
      exact last2_reverse M z restL2
    rw [hl2] at hx
    injection hx with hx2
    rw [Prod.mk.injEq] at hx2
    rw [hupshape] at hz
    have hzz : zz = u₁ := by simpa using hz.symm
    rw [← hx2.1, hzz]
    exact hseam1
  have hstUlast2 : last2 ((upperStack points).reverse) = some (w, p0) := by
    rw [hstUshape]
    exact last2_reverse p0 w restU2
  have hlast2A : last2 ((lowerStack points).reverse ++ ((upperStack points).reverse).tail)
      = some (w, p0) := by
    rw [hupshape] at hstUlast2
    rw [hupshape]
    cases hrU : restU with
    | nil =>
        rw [hrU] at hstUlast2
        have he : (M, u₁) = (w, p0) := by
          have h0 : some (M, u₁) = some (w, p0) := hstUlast2
          injection h0
        show last2 ((lowerStack points).reverse ++ [u₁]) = some (w, p0)
        rw [last2_append_single _ M u₁ hlow_last, he]
    | cons r t =>
        rw [hrU] at hstUlast2
        show last2 ((lowerStack points).reverse ++ (u₁ :: r :: t)) = some (w, p0)
        rw [last2_append _ (by simp)]
        rw [last2_cons M (by simp)] at hstUlast2
        exact hstUlast2
  have hglue2 : Turn3 (((lowerStack points).reverse ++ ((upperStack points).reverse).tail)
      ++ ((lowerStack points).reverse).tail) := by
    refine turn3_glue _ _ p0 hglue1 hT3L ?_ hlow_head ?_
    · rw [hupshape]
      show ((lowerStack points).reverse ++ (u₁ :: restU)).getLast? = some p0
      rw [List.getLast?_append_of_ne_nil _ (show (u₁ :: restU) ≠ [] by simp)]
      rw [hupshape, List.getLast?_cons_cons] at hup_last
      exact hup_last
    · intro x zz hx hz
      rw [hlast2A] at hx
      injection hx with hx2
      rw [Prod.mk.injEq] at hx2
      rw [hlowshape] at hz
      have hzz : zz = v₁ := by simpa using hz.symm
      rw [← hx2.1, hzz]
      exact hseam2
  exact hglue2

/-- The doubled hull cycle is a prefix of the doubled chain list proved
strict by `turn3_big`, and the chains are long enough. -/
theorem hull_cycle_decomp (points : List Point)
    (h3 : 3 ≤ points.length) (hp3 : 3 ≤ (sortPts points).length)
    (hO3 : 3 ≤ (convex_hull points).length) :
    ∃ rest, (lowerStack points).reverse ++ ((upperStack points).reverse).tail
        ++ ((lowerStack points).reverse).tail
      = (convex_hull points ++ (convex_hull points).take 2) ++ rest ∧
      5 ≤ (lowerStack points).length + (upperStack points).length := by
  have hne : sortPts points ≠ [] := by
    intro hc
    rw [hc] at hp3
    simp at hp3
  have hinvL := lowerStack_inv points hne
  have hchain := sortPts_chain points
  obtain ⟨p0, hp0⟩ : ∃ p0, (sortPts points).head? = some p0 := by
    cases hps : sortPts points with
    | nil => exact absurd hps hne
    | cons a t => exact ⟨a, rfl⟩
  obtain ⟨M, hM⟩ : ∃ M, (sortPts points).getLast? = some M := by
    cases hps : sortPts points with
    | nil => exact absurd hps hne
    | cons a t => exact ⟨(a :: t).getLast (by simp), List.getLast?_eq_getLast _ _⟩
  have hp0M : p0 ≠ M := pairwise_head_ne_last hchain (by omega) hp0 hM
  have hlow_head : (lowerStack points).reverse.head? = some p0 := by
    rw [List.head?_reverse, hinvL.last_eq, hp0]
  have hlow_last : (lowerStack points).reverse.getLast? = some M := by
    rw [List.getLast?_reverse, hinvL.head_eq, hM]
  have hup_head : (upperStack points).reverse.head? = some M := by
    rw [List.head?_reverse, upperStack_last points hne, hM]
  have hup_last : (upperStack points).reverse.getLast? = some p0 := by
    rw [List.getLast?_reverse, upperStack_head points hne, hp0]
  have hlow_len : 2 ≤ (lowerStack points).reverse.length :=
    two_le_length_of_head_ne_last _ p0 M hlow_head hlow_last hp0M
  have hup_len : 2 ≤ (upperStack points).reverse.length :=
    two_le_length_of_head_ne_last _ M p0 hup_head hup_last (Ne.symm hp0M)
  obtain ⟨v₁, restL, hlowshape⟩ := shape_of_head_len hlow_head hlow_len
  obtain ⟨u₁, restU, hupshape⟩ := shape_of_head_len hup_head hup_len
  have hhull := convex_hull_main points h3 hp3
  have hlen5 : 5 ≤ (lowerStack points).length + (upperStack points).length := by
    have hOlen : (convex_hull points).length
        = (lowerStack points).reverse.length - 1 + ((upperStack points).reverse.length - 1) := by
      rw [hhull, List.length_append, List.length_dropLast, List.length_dropLast]
    rw [← List.length_reverse (lowerStack points), ← List.length_reverse (upperStack points)]
    omega
  refine ⟨restL, ?_, hlen5⟩
  have hupne : (upperStack points).reverse ≠ [] := by
    rw [hupshape]
    simp
  have hlowne : (lowerStack points).reverse ≠ [] := by
    rw [hlowshape]
    simp
  have hupGL : (upperStack points).reverse.getLast hupne = p0 := by
    have h := List.getLast?_eq_getLast ((upperStack points).reverse) hupne
    rw [hup_last] at h
    exact (Option.some.inj h).symm
  have hupdec : (upperStack points).reverse.dropLast ++ [p0] = (upperStack points).reverse := by
    have h := List.dropLast_append_getLast hupne
    rw [hupGL] at h
    exact h
  have hlowGL : (lowerStack points).reverse.getLast hlowne = M := by
    have h := List.getLast?_eq_getLast ((lowerStack points).reverse) hlowne
    rw [hlow_last] at h
    exact (Option.some.inj h).symm
  have hlowdec : (lowerStack points).reverse.dropLast ++ [M] = (lowerStack points).reverse := by
    have h := List.dropLast_append_getLast hlowne
    rw [hlowGL] at h
    exact h
  have htake : ((lowerStack points).reverse.dropLast
        ++ (upperStack points).reverse.dropLast).take 2 = [p0, v₁] := by
    cases hrL : restL with
    | nil =>
        have hv₁M : v₁ = M := by
          have h := hlow_last
          rw [hlowshape, hrL] at h
          simpa using h
        rw [hlowshape, hrL, hupshape, hv₁M]
        simp [List.dropLast]
    | cons r t =>
        rw [hlowshape, hrL]
        simp [List.dropLast]
  have h1 : (lowerStack points).reverse ++ ((upperStack points).reverse).tail
      = (lowerStack points).reverse.dropLast ++ (upperStack points).reverse := by
    conv_lhs => rw [← hlowdec]
    rw [hupshape, List.append_assoc]
    rfl
  have h2 : ((lowerStack points).reverse).tail = v₁ :: restL := by
    rw [hlowshape]
    rfl
  have h3' : (upperStack points).reverse ++ (v₁ :: restL)
      = (upperStack points).reverse.dropLast ++ (p0 :: v₁ :: restL) := by
    conv_lhs => rw [← hupdec]
    rw [List.append_assoc]
    rfl
  rw [hhull, htake, h1, h2]
  simp only [List.append_assoc]
  rw [h3']
  rfl

/-! ### Uniqueness of the scan chain, and hull idempotence

The chain produced by the monotone scan is the unique strictly-turning
supported chain over a sorted point list.  This yields that the two
chains of `convex_hull` share no interior vertex (the output list has no
duplicates) and that rescanning the hull output reproduces it. -/

theorem turn3_append_right : ∀ (A B : List Point), Turn3 (A ++ B) → Turn3 B
  | [], _, h => h
  | _ :: A, B, h => turn3_append_right A B (turn3_tail h)

theorem pairsF_of_split : ∀ (l₁ : List Point) (u v : Point) (l₂ : List Point),
    (u, v) ∈ pairsF (l₁ ++ u :: v :: l₂)
  | [], u, v, l₂ => List.mem_cons_self _ _
  | w :: l₁, u, v, l₂ => by
      have ih := pairsF_of_split l₁ u v l₂
      cases hl : l₁ ++ u :: v :: l₂ with
      | nil => exact absurd hl (by simp)
      | cons b t =>
          rw [List.cons_append, hl]
          rw [hl] at ih
          show (u, v) ∈ (w, b) :: pairsF (b :: t)
          exact List.mem_cons_of_mem _ ih

theorem interior_split : ∀ (l : List Point) (x : Point),
    x ∈ l.dropLast → l.head? ≠ some x →
    ∃ l₁ a b l₂, l = l₁ ++ (a :: x :: b :: l₂) := by
  intro l
  induction l with
  | nil => intro x hx _; simp at hx
  | cons y t ih =>
      intro x hx hhead
      match t, hx with
      | [], hx => simp at hx
      | z :: t', hx =>
          rw [show (y :: z :: t').dropLast = y :: (z :: t').dropLast from rfl] at hx
          rcases List.mem_cons.1 hx with rfl | hx2
          · simp at hhead
          · by_cases hxz : x = z
            · subst hxz
              match t', hx2 with
              | w :: t'', _ => exact ⟨[], y, w, t'', rfl⟩
              | [], hx2 => simp at hx2
            · have hh2 : (z :: t').head? ≠ some x := by
                simp only [List.head?_cons, ne_eq, Option.some.injEq]
                exact fun e => hxz e.symm
              obtain ⟨l₁, a, b, l₂, he⟩ := ih x hx2 hh2
              exact ⟨y :: l₁, a, b, l₂, by rw [List.cons_append, ← he]⟩

/-- A strict vertex of a supported chain cannot be weakly left of an
edge whose endpoints strictly span it and lie on or left of both wedge
edges at the vertex. -/
theorem vertex_not_charged {a v b e₁ e₂ : Point}
    (hav : lexLt a v) (hvb : lexLt v b)
    (he₁ : lexLt e₁ v) (he₂ : lexLt v e₂)
    (hF1 : 0 ≤ cross_product a v e₁) (hF2 : 0 ≤ cross_product a v e₂)
    (hG1 : 0 ≤ cross_product v b e₁) (hG2 : 0 ≤ cross_product v b e₂)
    (hturn : 0 < cross_product a v b)
    (hchg : 0 ≤ cross_product e₁ e₂ v) : False := by
  have hxa : a.1 ≤ v.1 := lexLt_x hav
  have hxb : v.1 ≤ b.1 := lexLt_x hvb
  have hxe₁ : e₁.1 ≤ v.1 := lexLt_x he₁
  have hxe₂ : v.1 ≤ e₂.1 := lexLt_x he₂
  have hav' : a.1 < v.1 := by
    rcases lt_or_eq_of_le hxa with h | h
    · exact h
    · exfalso
      have hay : a.2 < v.2 := by
        rcases (hav : a.1 < v.1 ∨ (a.1 = v.1 ∧ a.2 < v.2)) with hlt | ⟨_, hlt⟩
        · rw [h] at hlt
          exact absurd hlt (lt_irrefl _)
        · exact hlt
      have hexp : cross_product a v b = (v.2 - a.2) * (v.1 - b.1) := by
        unfold cross_product
        rw [h]
        ring
      rw [hexp] at hturn
      nlinarith [hturn, hay, hxb]
  have hidA : cross_product v e₂ e₁ * (v.1 - a.1)
      = cross_product a v e₂ * (v.1 - e₁.1) + cross_product a v e₁ * (e₂.1 - v.1) := by
    unfold cross_product
    ring
  have hswap : cross_product v e₂ e₁ = - cross_product e₁ e₂ v := by
    unfold cross_product
    ring
  have hL : cross_product v e₂ e₁ * (v.1 - a.1) ≤ 0 := by
    rw [hswap]
    have h1 : 0 ≤ cross_product e₁ e₂ v * (v.1 - a.1) := mul_nonneg hchg (by linarith)
    linarith
  have hR1 : 0 ≤ cross_product a v e₂ * (v.1 - e₁.1) := mul_nonneg hF2 (by linarith)
  have hR2 : 0 ≤ cross_product a v e₁ * (e₂.1 - v.1) := mul_nonneg hF1 (by linarith)
  have hz1 : cross_product a v e₂ * (v.1 - e₁.1) = 0 := by linarith
  have hidB : cross_product v e₂ e₁ * (v.1 - b.1)
      = - (cross_product v b e₂ * (v.1 - e₁.1) + cross_product v b e₁ * (e₂.1 - v.1)) := by
    unfold cross_product
    ring
  have hL2 : 0 ≤ cross_product v e₂ e₁ * (v.1 - b.1) := by
    rw [hswap]
    have h1 : 0 ≤ cross_product e₁ e₂ v * (b.1 - v.1) := mul_nonneg hchg (by linarith)
    linarith
  have hR3 : 0 ≤ cross_product v b e₂ * (v.1 - e₁.1) := mul_nonneg hG2 (by linarith)
  have hR4 : 0 ≤ cross_product v b e₁ * (e₂.1 - v.1) := mul_nonneg hG1 (by linarith)
  have hz2 : cross_product v b e₂ * (v.1 - e₁.1) = 0 := by linarith
  rcases lt_or_eq_of_le hxe₁ with hlt | heq
  · have hF2z : cross_product a v e₂ = 0 := by
      rcases mul_eq_zero.1 hz1 with h | h
      · exact h
      · linarith
    have hG2z : cross_product v b e₂ = 0 := by
      rcases mul_eq_zero.1 hz2 with h | h
      · exact h
      · linarith
    have hidC : cross_product a v b * (e₂.1 - v.1)
        = (a.1 - v.1) * cross_product v b e₂ + (b.1 - v.1) * cross_product a v e₂ := by
      unfold cross_product
      ring
    have hidD : cross_product a v b * (e₂.2 - v.2)
        = (a.2 - v.2) * cross_product v b e₂ + (b.2 - v.2) * cross_product a v e₂ := by
      unfold cross_product
      ring
    rw [hF2z, hG2z] at hidC hidD
    simp only [mul_zero, add_zero, zero_add] at hidC hidD
    have he₂x : e₂.1 = v.1 := by
      rcases mul_eq_zero.1 hidC with h | h
      · exact absurd h (ne_of_gt hturn)
      · linarith
    have he₂y : e₂.2 = v.2 := by
      rcases mul_eq_zero.1 hidD with h | h
      · exact absurd h (ne_of_gt hturn)
      · linarith
    rcases (he₂ : v.1 < e₂.1 ∨ (v.1 = e₂.1 ∧ v.2 < e₂.2)) with hlt2 | ⟨_, hlt2⟩
    · rw [he₂x] at hlt2
      exact absurd hlt2 (lt_irrefl _)
    · rw [he₂y] at hlt2
      exact absurd hlt2 (lt_irrefl _)
  · have he₁y : e₁.2 < v.2 := by
      rcases (he₁ : e₁.1 < v.1 ∨ (e₁.1 = v.1 ∧ e₁.2 < v.2)) with hlt2 | ⟨_, hlt2⟩
      · rw [heq] at hlt2
        exact absurd hlt2 (lt_irrefl _)
      · exact hlt2
    have hexp : cross_product a v e₁ = (v.1 - a.1) * (e₁.2 - v.2) := by
      unfold cross_product
      rw [heq]
      ring
    rw [hexp] at hF1
    nlinarith [hF1, hav', he₁y]

/-- A point cannot be an interior vertex of both chains: a strict lower
turn at `x` with wedge support is incompatible with an upper edge `c → x`
supporting every point. -/
theorem no_double_vertex {S : List Point} {a x b c : Point}
    (ha : lexLt a x) (hb : lexLt x b) (hc : lexLt x c)
    (haS : a ∈ S) (hbS : b ∈ S) (hcS : c ∈ S)
    (hEa : ∀ q ∈ S, 0 ≤ cross_product a x q)
    (hEc : ∀ q ∈ S, 0 ≤ cross_product c x q)
    (hturn : 0 < cross_product a x b) : False := by
  have h1 : 0 ≤ cross_product a x c := hEa c hcS
  have h2 : 0 ≤ cross_product c x a := hEc a haS
  have hswap : cross_product c x a = - cross_product a x c := by
    unfold cross_product
    ring
  rw [hswap] at h2
  have hcol : cross_product a x c = 0 := le_antisymm (by linarith) h1
  have hid : cross_product x c b * (x.1 - a.1) + cross_product a x b * (x.1 - c.1)
      = cross_product a x c * (x.1 - b.1) := by
    unfold cross_product
    ring
  rw [hcol, zero_mul] at hid
  have hswap2 : cross_product x c b = - cross_product c x b := by
    unfold cross_product
    ring
  have hxa : a.1 ≤ x.1 := lexLt_x ha
  have hxc : x.1 ≤ c.1 := lexLt_x hc
  have hEcb := hEc b hbS
  have t1 : cross_product x c b * (x.1 - a.1) ≤ 0 := by
    rw [hswap2]
    have h3 : 0 ≤ cross_product c x b * (x.1 - a.1) := mul_nonneg hEcb (by linarith)
    linarith
  have t2' : 0 ≤ cross_product a x b * (c.1 - x.1) :=
    mul_nonneg (le_of_lt hturn) (by linarith)
  have t2 : cross_product a x b * (x.1 - c.1) ≤ 0 := by linarith [t2']
  have hz1 : cross_product a x b * (x.1 - c.1) = 0 := by linarith
  have hxc1 : x.1 = c.1 := by
    rcases mul_eq_zero.1 hz1 with hcc | hcc
    · exact absurd hcc (ne_of_gt hturn)
    · linarith
  have hcy : x.2 < c.2 := by
    rcases (hc : x.1 < c.1 ∨ (x.1 = c.1 ∧ x.2 < c.2)) with hlt | ⟨_, hlt⟩
    · rw [hxc1] at hlt
      exact absurd hlt (lt_irrefl _)
    · exact hlt
  have hright : ∀ q ∈ S, x.1 ≤ q.1 := by
    intro q hq
    have h3 := hEc q hq
    have hexp : cross_product c x q = (c.2 - x.2) * (q.1 - x.1) := by
      unfold cross_product
      rw [← hxc1]
      ring
    rw [hexp] at h3
    nlinarith [h3, hcy]
  have hax : a.1 = x.1 := le_antisymm (lexLt_x ha) (hright a haS)
  have hay : a.2 < x.2 := by
    rcases (ha : a.1 < x.1 ∨ (a.1 = x.1 ∧ a.2 < x.2)) with hlt | ⟨_, hlt⟩
    · rw [hax] at hlt
      exact absurd hlt (lt_irrefl _)
    · exact hlt
  have hbx : x.1 ≤ b.1 := hright b hbS
  have hexp2 : cross_product a x b = (x.2 - a.2) * (x.1 - b.1) := by
    unfold cross_product
    rw [hax]
    ring
  rw [hexp2] at hturn
  nlinarith [hturn, hay, hbx]

theorem getLast_lexLe_mem {ps : List Point} {m : Point} (hpw : ps.Pairwise lexLt)
    (hl : ps.getLast? = some m) : ∀ q ∈ ps, lexLe q m := by
  intro q hq
  have h1 : ps.reverse.head? = some m := by
    rw [List.head?_reverse]
    exact hl
  have h2 : ps.reverse.Pairwise (fun x y => lexLt y x) := by
    rw [List.pairwise_reverse]
    exact hpw
  have hq' : q ∈ ps.reverse := List.mem_reverse.2 hq
  match ps.reverse, h1, h2, hq' with
  | x :: t, h1, h2, hq' =>
    have hx : x = m := by simpa using h1
    subst hx
    rcases List.mem_cons.1 hq' with rfl | hq2
    · exact lexLe_refl _
    · exact lexLe_of_lexLt ((List.pairwise_cons.1 h2).1 q hq2)

theorem getLast?_eq_max {T : List Point} {m : Point} (hpw : T.Pairwise lexLt)
    (hm : m ∈ T) (hmax : ∀ q ∈ T, lexLe q m) : T.getLast? = some m := by
  have hne : T ≠ [] := fun hc => by rw [hc] at hm; simp at hm
  obtain ⟨g, hg⟩ : ∃ g, T.getLast? = some g := by
    cases hT : T with
    | nil => exact absurd hT hne
    | cons a t => exact ⟨(a :: t).getLast (by simp), List.getLast?_eq_getLast _ _⟩
  have hgT : g ∈ T := List.mem_of_mem_getLast? hg
  have h1 : lexLe m g := getLast_lexLe_mem hpw hg m hm
  have h2 : lexLe g m := hmax g hgT
  rw [hg, lexLe_antisymm_eq h2 h1]

theorem head?_eq_min {T : List Point} {m : Point} (hpw : T.Pairwise lexLt)
    (hm : m ∈ T) (hmin : ∀ q ∈ T, lexLe m q) : T.head? = some m := by
  have hne : T ≠ [] := fun hc => by rw [hc] at hm; simp at hm
  obtain ⟨g, hg⟩ : ∃ g, T.head? = some g := by
    cases hT : T with
    | nil => exact absurd hT hne
    | cons a t => exact ⟨a, rfl⟩
  have hgT : g ∈ T := by
    cases hT : T with
    | nil => exact absurd hT hne
    | cons a t =>
        rw [hT] at hg
        have ha : a = g := by simpa using hg
        rw [← ha]
        exact List.mem_cons_self _ _
  have h1 := head_lexLe_mem hpw hg m hm
  have h2 := hmin g hgT
  rw [hg, lexLe_antisymm_eq h1 h2]

instance : IsAntisymm Point lexLt where
  antisymm := fun a b h₁ h₂ => absurd (lexLt_trans h₁ h₂) (lexLt_irrefl a)

/-- Any two stacks satisfying the full scan invariant over the same
sorted list are equal: membership is mutual (an interior vertex of one
would be charged to a strictly spanning edge of the other, impossible by
`vertex_not_charged`), and both are strictly sorted. -/
theorem scanInv_unique {S st₁ st₂ : List Point}
    (h₁ : ScanInv S st₁) (h₂ : ScanInv S st₂) : st₁ = st₂ := by
  have key : ∀ st st' : List Point, ScanInv S st → ScanInv S st' →
      ∀ v ∈ st, v ∈ st' := by
    intro st st' h h' v hv
    by_contra hvn
    have hSne : S ≠ [] := by
      intro hc
      have hh := h.head_eq
      rw [hc] at hh
      simp at hh
      exact h.ne hh
    obtain ⟨p0, hp0⟩ : ∃ p0, S.head? = some p0 := by
      cases hS : S with
      | nil => exact absurd hS hSne
      | cons x t => exact ⟨x, rfl⟩
    obtain ⟨M, hM⟩ : ∃ M, S.getLast? = some M := by
      cases hS : S with
      | nil => exact absurd hS hSne
      | cons x t => exact ⟨(x :: t).getLast (by simp), List.getLast?_eq_getLast _ _⟩
    have hp0' : p0 ∈ st' := by
      have hl := h'.last_eq
      rw [hp0] at hl
      exact List.mem_of_mem_getLast? hl
    have hM' : M ∈ st' := by
      have hh := h'.head_eq
      rw [hM] at hh
      cases hst : st' with
      | nil => exact absurd hst h'.ne
      | cons x t =>
          rw [hst] at hh
          have hx : x = M := by simpa using hh
          rw [← hx]
          exact List.mem_cons_self _ _
    have hvp0 : v ≠ p0 := fun e => hvn (e ▸ hp0')
    have hvM : v ≠ M := fun e => hvn (e ▸ hM')
    have hvf : v ∈ st.reverse := List.mem_reverse.2 hv
    have hvd : v ∈ st.reverse.dropLast := by
      rcases mem_dropLast_or_getLast _ v hvf with h0 | h0
      · exact h0
      · exfalso
        rw [List.getLast?_reverse, h.head_eq, hM] at h0
        exact hvM (by injection h0 with h0'; exact h0'.symm)
    have hhne : st.reverse.head? ≠ some v := by
      rw [List.head?_reverse, h.last_eq, hp0]
      intro hc
      injection hc with hc'
      exact hvp0 hc'.symm
    obtain ⟨l₁, a, b, l₂, hsplit⟩ := interior_split st.reverse v hvd hhne
    have hpwf : st.reverse.Pairwise lexLt := by
      rw [List.pairwise_reverse]
      exact h.sorted
    have hav : lexLt a v := by
      rw [hsplit] at hpwf
      have hA := (List.pairwise_append.1 hpwf).2.1
      exact (List.pairwise_cons.1 hA).1 v (List.mem_cons_self _ _)
    have hvb : lexLt v b := by
      rw [hsplit] at hpwf
      have hA := (List.pairwise_append.1 hpwf).2.1
      have hB := (List.pairwise_cons.1 hA).2
      exact (List.pairwise_cons.1 hB).1 b (List.mem_cons_self _ _)
    have hEa : ∀ q ∈ S, 0 ≤ cross_product a v q := by
      have hpr : ((a, v) : Point × Point) ∈ stackPairs st := by
        apply mem_stackPairs_of_rev
        rw [hsplit]
        exact pairsF_of_split l₁ a v (b :: l₂)
      intro q hq
      exact h.edges _ hpr q hq
    have hEb : ∀ q ∈ S, 0 ≤ cross_product v b q := by
      have hpr : ((v, b) : Point × Point) ∈ stackPairs st := by
        apply mem_stackPairs_of_rev
        rw [hsplit]
        have hsp := pairsF_of_split (l₁ ++ [a]) v b l₂
        rw [List.append_assoc] at hsp
        simpa using hsp
      intro q hq
      exact h.edges _ hpr q hq
    have hturn : 0 < cross_product a v b := by
      have hT := turn3_reverse_of_goodTurns h.turns
      rw [hsplit] at hT
      exact (turn3_append_right l₁ _ hT).1
    have hvS : v ∈ S := h.subset v hv
    rcases h'.above v hvS with ⟨pr, hpr, hchg⟩ | hsing
    · obtain ⟨he₁v, hve₂, hcr⟩ := hchg
      have hm := stackPairs_mem hpr
      have he₁ : lexLt pr.1 v := lexLt_of_lexLe_ne he₁v (fun e => hvn (e ▸ hm.1))
      have he₂ : lexLt v pr.2 := lexLt_of_lexLe_ne hve₂ (fun e => hvn (e.symm ▸ hm.2))
      exact vertex_not_charged hav hvb he₁ he₂
        (hEa pr.1 (h'.subset pr.1 hm.1)) (hEa pr.2 (h'.subset pr.2 hm.2))
        (hEb pr.1 (h'.subset pr.1 hm.1)) (hEb pr.2 (h'.subset pr.2 hm.2))
        hturn hcr
    · exact hvn (by rw [hsing]; exact List.mem_cons_self _ _)
  have hmem : ∀ x, x ∈ st₁ ↔ x ∈ st₂ :=
    fun x => ⟨key st₁ st₂ h₁ h₂ x, key st₂ st₁ h₂ h₁ x⟩
  have hnd₁ : st₁.Nodup := h₁.sorted.imp (fun h => (lexLt_ne h).symm)
  have hnd₂ : st₂.Nodup := h₂.sorted.imp (fun h => (lexLt_ne h).symm)
  have hperm : st₁.Perm st₂ := (List.perm_ext_iff_of_nodup hnd₁ hnd₂).2 hmem
  have hs₁ : st₁.reverse.Pairwise lexLt := by
    rw [List.pairwise_reverse]
    exact h₁.sorted
  have hs₂ : st₂.reverse.Pairwise lexLt := by
    rw [List.pairwise_reverse]
    exact h₂.sorted
  have hrev := List.eq_of_perm_of_sorted
    (((st₁.reverse_perm).trans hperm).trans (st₂.reverse_perm).symm) hs₁ hs₂
  have h2 := congrArg List.reverse hrev
  rwa [List.reverse_reverse, List.reverse_reverse] at h2

/-- The hull output list has no duplicate vertices: each chain is
strictly monotone, and no point is an interior vertex of both chains. -/
theorem hull_nodup (points : List Point) (h3 : 3 ≤ points.length)
    (hp3 : 3 ≤ (sortPts points).length) :
    (convex_hull points).Nodup := by
  have hne : sortPts points ≠ [] := by
    intro hc
    rw [hc] at hp3
    simp at hp3
  have hinvL := lowerStack_inv points hne
  obtain ⟨p0, hp0⟩ : ∃ p0, (sortPts points).head? = some p0 := by
    cases hps : sortPts points with
    | nil => exact absurd hps hne
    | cons a t => exact ⟨a, rfl⟩
  obtain ⟨M, hM⟩ : ∃ M, (sortPts points).getLast? = some M := by
    cases hps : sortPts points with
    | nil => exact absurd hps hne
    | cons a t => exact ⟨(a :: t).getLast (by simp), List.getLast?_eq_getLast _ _⟩
  have hlow_head : (lowerStack points).reverse.head? = some p0 := by
    rw [List.head?_reverse, hinvL.last_eq, hp0]
  have hlow_last : (lowerStack points).reverse.getLast? = some M := by
    rw [List.getLast?_reverse, hinvL.head_eq, hM]
  have hup_head : (upperStack points).reverse.head? = some M := by
    rw [List.head?_reverse, upperStack_last points hne, hM]
  have hup_last : (upperStack points).reverse.getLast? = some p0 := by
    rw [List.getLast?_reverse, upperStack_head points hne, hp0]
  have hhull := convex_hull_main points h3 hp3
  have hlowPW : ((lowerStack points).reverse).Pairwise lexLt := by
    rw [List.pairwise_reverse]
    exact hinvL.sorted
  have hupPW : ((upperStack points).reverse).Pairwise (fun x y => lexLt y x) := by
    rw [List.pairwise_reverse]
    exact upperStack_pairwise points hne
  rw [hhull, List.nodup_append]
  refine ⟨?_, ?_, ?_⟩
  · exact List.Nodup.sublist (List.dropLast_sublist _) (hlowPW.imp (fun h => lexLt_ne h))
  · exact List.Nodup.sublist (List.dropLast_sublist _)
      (hupPW.imp (fun h => (lexLt_ne h).symm))
  · intro x hxl hxu
    have hlowne : (lowerStack points).reverse ≠ [] := by
      intro hc
      rw [hc] at hlow_head
      simp at hlow_head
    have hupne : (upperStack points).reverse ≠ [] := by
      intro hc
      rw [hc] at hup_head
      simp at hup_head
    have hxM : x ≠ M := by
      intro hc
      subst hc
      have hGL : (lowerStack points).reverse.getLast hlowne = x := by
        have h := List.getLast?_eq_getLast ((lowerStack points).reverse) hlowne
        rw [hlow_last] at h
        exact (Option.some.inj h).symm
      have hdec := List.dropLast_append_getLast hlowne
      rw [hGL] at hdec
      have hnd : ((lowerStack points).reverse).Nodup := hlowPW.imp (fun h => lexLt_ne h)
      rw [← hdec, List.nodup_append] at hnd
      exact hnd.2.2 hxl (List.mem_cons_self _ _)
    have hxp0 : x ≠ p0 := by
      intro hc
      subst hc
      have hGL : (upperStack points).reverse.getLast hupne = x := by
        have h := List.getLast?_eq_getLast ((upperStack points).reverse) hupne
        rw [hup_last] at h
        exact (Option.some.inj h).symm
      have hdec := List.dropLast_append_getLast hupne
      rw [hGL] at hdec
      have hnd : ((upperStack points).reverse).Nodup :=
        hupPW.imp (fun h => (lexLt_ne h).symm)
      rw [← hdec, List.nodup_append] at hnd
      exact hnd.2.2 hxu (List.mem_cons_self _ _)
    obtain ⟨l₁, a, b, l₂, heL⟩ : ∃ l₁ a b l₂,
        (lowerStack points).reverse = l₁ ++ (a :: x :: b :: l₂) := by
      apply interior_split _ _ hxl
      rw [hlow_head]
      intro hc
      injection hc with hc'
      exact hxp0 hc'.symm
    obtain ⟨m₁, c, d, m₂, heU⟩ : ∃ m₁ c d m₂,
        (upperStack points).reverse = m₁ ++ (c :: x :: d :: m₂) := by
      apply interior_split _ _ hxu
      rw [hup_head]
      intro hc
      injection hc with hc'
      exact hxM hc'.symm
    have hlowPW' := hlowPW
    rw [heL] at hlowPW'
    have hupPW' := hupPW
    rw [heU] at hupPW'
    have hav : lexLt a x :=
      (List.pairwise_cons.1 (List.pairwise_append.1 hlowPW').2.1).1 x (List.mem_cons_self _ _)
    have hxb : lexLt x b := by
      have hA := (List.pairwise_append.1 hlowPW').2.1
      have hB := (List.pairwise_cons.1 hA).2
      exact (List.pairwise_cons.1 hB).1 b (List.mem_cons_self _ _)
    have hcx : lexLt x c :=
      (List.pairwise_cons.1 (List.pairwise_append.1 hupPW').2.1).1 x (List.mem_cons_self _ _)
    have hEa : ∀ q ∈ sortPts points, 0 ≤ cross_product a x q := by
      have hpr : ((a, x) : Point × Point) ∈ stackPairs (lowerStack points) := by
        apply mem_stackPairs_of_rev
        rw [heL]
        exact pairsF_of_split l₁ a x (b :: l₂)
      intro q hq
      exact hinvL.edges _ hpr q hq
    have hEc : ∀ q ∈ sortPts points, 0 ≤ cross_product c x q := by
      have hpr : ((c, x) : Point × Point) ∈ stackPairs (upperStack points) := by
        apply mem_stackPairs_of_rev
        rw [heU]
        exact pairsF_of_split m₁ c x (d :: m₂)
      intro q hq
      exact upperStack_edges points hne hpr q hq
    have hturn : 0 < cross_product a x b := by
      have hT := turn3_reverse_of_goodTurns hinvL.turns
      rw [heL] at hT
      exact (turn3_append_right l₁ _ hT).1
    have haS : a ∈ sortPts points := hinvL.subset a (by
      rw [← List.mem_reverse, heL]
      simp)
    have hbS : b ∈ sortPts points := hinvL.subset b (by
      rw [← List.mem_reverse, heL]
      simp)
    have hcS : c ∈ sortPts points := by
      apply mem_upperStack hne
      rw [← List.mem_reverse, heU]
      simp
    exact no_double_vertex hav hxb hcx haS hbS hcS hEa hEc hturn

/-- Rescanning the hull output reproduces both stacks: the original
stacks satisfy the full scan invariant over the sorted hull output, and
the invariant determines the stack uniquely. -/
theorem rescan_hull (points : List Point) (h3 : 3 ≤ points.length)
    (hp3 : 3 ≤ (sortPts points).length) :
    lowerStack (convex_hull points) = lowerStack points ∧
    upperStack (convex_hull points) = upperStack points := by
  have hne : sortPts points ≠ [] := by
    intro hc
    rw [hc] at hp3
    simp at hp3
  have hinvL := lowerStack_inv points hne
  have hinvU := upperStack_inv points hne
  obtain ⟨p0, hp0⟩ : ∃ p0, (sortPts points).head? = some p0 := by
    cases hps : sortPts points with
    | nil => exact absurd hps hne
    | cons a t => exact ⟨a, rfl⟩
  obtain ⟨M, hM⟩ : ∃ M, (sortPts points).getLast? = some M := by
    cases hps : sortPts points with
    | nil => exact absurd hps hne
    | cons a t => exact ⟨(a :: t).getLast (by simp), List.getLast?_eq_getLast _ _⟩
  have hhull := convex_hull_main points h3 hp3
  have hOsub : ∀ q ∈ convex_hull points, q ∈ sortPts points := by
    intro q hq
    rw [hhull] at hq
    rcases List.mem_append.1 hq with h | h
    · exact hinvL.subset q (List.mem_reverse.1 ((List.dropLast_sublist _).subset h))
    · exact mem_upperStack hne (List.mem_reverse.1 ((List.dropLast_sublist _).subset h))
  have hp0stL : p0 ∈ lowerStack points := by
    have hl : (lowerStack points).getLast? = some p0 := by
      rw [hinvL.last_eq, hp0]
    exact List.mem_of_mem_getLast? hl
  have hMstL : M ∈ lowerStack points := by
    have hh : (lowerStack points).head? = some M := by
      rw [hinvL.head_eq, hM]
    cases hst : lowerStack points with
    | nil => exact absurd hst hinvL.ne
    | cons y t =>
        rw [hst] at hh
        have hy : y = M := by simpa using hh
        rw [← hy]
        exact List.mem_cons_self _ _
  have hp0O : p0 ∈ convex_hull points := (stack_mem_hull points h3 hp3).1 p0 hp0stL
  have hMO : M ∈ convex_hull points := (stack_mem_hull points h3 hp3).1 M hMstL
  have hSOhead : (sortPts (convex_hull points)).head? = some p0 :=
    head?_eq_min (sortPts_chain _) (mem_sortPts.2 hp0O)
      (fun q hq => head_lexLe_mem (sortPts_chain points) hp0 q (hOsub q (mem_sortPts.1 hq)))
  have hSOlast : (sortPts (convex_hull points)).getLast? = some M :=
    getLast?_eq_max (sortPts_chain _) (mem_sortPts.2 hMO)
      (fun q hq => getLast_lexLe_mem (sortPts_chain points) hM q (hOsub q (mem_sortPts.1 hq)))
  have hSne : sortPts (convex_hull points) ≠ [] := by
    intro hc
    have hm := mem_sortPts.2 hp0O
    rw [hc] at hm
    simp at hm
  have hinvL' : ScanInv (sortPts (convex_hull points)) (lowerStack points) := by
    refine ⟨hinvL.ne, hinvL.sorted, ?_, ?_, ?_, hinvL.turns, ?_, ?_⟩
    · intro x hx
      exact mem_sortPts.2 ((stack_mem_hull points h3 hp3).1 x hx)
    · rw [hinvL.head_eq, hM, hSOlast]
    · rw [hinvL.last_eq, hp0, hSOhead]
    · intro pr hpr q hq
      exact hinvL.edges pr hpr q (hOsub q (mem_sortPts.1 hq))
    · intro q hq
      exact hinvL.above q (hOsub q (mem_sortPts.1 hq))
  have hinvU' : ScanInv ((sortPts (convex_hull points)).reverse.map negPt)
      ((upperStack points).map negPt) := by
    refine ⟨hinvU.ne, hinvU.sorted, ?_, ?_, ?_, hinvU.turns, ?_, ?_⟩
    · intro x hx
      rw [List.mem_map] at hx
      obtain ⟨u, hu, rfl⟩ := hx
      exact List.mem_map_of_mem _ (List.mem_reverse.2 (mem_sortPts.2
        ((stack_mem_hull points h3 hp3).2 u hu)))
    · have h1 := hinvU.head_eq
      rw [List.getLast?_map, List.getLast?_reverse, hp0] at h1
      have h2 : ((sortPts (convex_hull points)).reverse.map negPt).getLast?
          = Option.map negPt (some p0) := by
        rw [List.getLast?_map, List.getLast?_reverse, hSOhead]
      rw [h1, h2]
    · have h1 := hinvU.last_eq
      rw [List.head?_map, List.head?_reverse, hM] at h1
      have h2 : ((sortPts (convex_hull points)).reverse.map negPt).head?
          = Option.map negPt (some M) := by
        rw [List.head?_map, List.head?_reverse, hSOlast]
      rw [h1, h2]
    · intro pr hpr q hq
      rw [List.mem_map] at hq
      obtain ⟨q0, hq0, rfl⟩ := hq
      rw [List.mem_reverse, mem_sortPts] at hq0
      exact hinvU.edges pr hpr _ (List.mem_map_of_mem _ (List.mem_reverse.2
        (hOsub q0 hq0)))
    · intro q hq
      rw [List.mem_map] at hq
      obtain ⟨q0, hq0, rfl⟩ := hq
      rw [List.mem_reverse, mem_sortPts] at hq0
      exact hinvU.above _ (List.mem_map_of_mem _ (List.mem_reverse.2 (hOsub q0 hq0)))
  have hUN := scanInv_unique (upperStack_inv (convex_hull points) hSne) hinvU'
  exact ⟨scanInv_unique (lowerStack_inv (convex_hull points) hSne) hinvL',
    List.map_injective_iff.2 negPt_injective hUN⟩

end Rebar

namespace Rebar

/-- C2: `checkCompliance` always returns one of the four statuses; it
returns UNKNOWN iff the design total is zero, and for a nonzero design
total it returns PASS/WARNING/FAIL exactly according to the sign of
`detectedCount - designTotal`. -/
theorem check_compliance_three_state (det dt : ℤ) :
    ((check_compliance det dt).status = "PASS" ∨
     (check_compliance det dt).status = "FAIL" ∨
     (check_compliance det dt).status = "WARNING" ∨
     (check_compliance det dt).status = "UNKNOWN") ∧
    ((check_compliance det dt).status = "UNKNOWN" ↔ dt = 0) ∧
    ((check_compliance det dt).status = "PASS" ↔ (dt ≠ 0 ∧ det = dt)) ∧
    ((check_compliance det dt).status = "WARNING" ↔ (dt ≠ 0 ∧ det > dt)) ∧
    ((check_compliance det dt).status = "FAIL" ↔ (dt ≠ 0 ∧ det < dt)) := by
  unfold check_compliance
  by_cases h0 : dt = 0
  · simp [h0]
  · by_cases h1 : det - dt = 0
    · have : det = dt := by omega
      simp [h0, h1, this]
    · by_cases h2 : det - dt > 0
      · have hgt : det > dt := by omega
        have hne : ¬ det = dt := by omega
        have hnl : ¬ det < dt := by omega
        simp [h0, h1, h2, hgt, hne, hnl]
      · have hlt : det < dt := by omega
        have hne : ¬ det = dt := by omega
        have hng : ¬ det > dt := by omega
        simp [h0, h1, h2, hlt, hne, hng]

/-- C5 (counterexample): the input `[(1,1),(0,0),(1,1)]` has fewer than 3
distinct points, yet `convexHull` does not return it verbatim — it
deduplicates and sorts. -/
theorem convex_hull_verbatim_counterexample :
    ([((1:ℚ),(1:ℚ)),(0,0),(1,1)] : List Point).dedup.length < 3 ∧
    convex_hull [((1:ℚ),(1:ℚ)),(0,0),(1,1)] ≠ [((1:ℚ),(1:ℚ)),(0,0),(1,1)] := by
  constructor
  · decide
  · decide

/-- C5 (amended): an input list with fewer than 3 entries is returned
verbatim; an input with at least 3 entries but fewer than 3 distinct
points is returned as the sorted deduplicated point list (not verbatim in
general). -/
theorem convex_hull_small_input (l : List Point) :
    (l.length < 3 → convex_hull l = l) ∧
    (3 ≤ l.length → l.dedup.length < 3 → convex_hull l = sortPts l) := by
  constructor
  · intro h
    unfold convex_hull
    rw [if_pos h]
  · intro h3 hd
    exact convex_hull_of_dedup_lt_three h3 hd

/-- Witness for C5's amended theorem at concrete inputs. -/
theorem convex_hull_small_input_witness :
    convex_hull [((5:ℚ),(5:ℚ)),(3,3)] = [((5:ℚ),(5:ℚ)),(3,3)] ∧
    convex_hull [((1:ℚ),(1:ℚ)),(0,0),(1,1)] = sortPts [((1:ℚ),(1:ℚ)),(0,0),(1,1)] :=
  ⟨(convex_hull_small_input _).1 (by decide),
   (convex_hull_small_input _).2 (by decide) (by decide)⟩

/-- C6: `parseRebarSpecs` keeps a match iff its count is in `[1,50]` and
its diameter in `[6,50]`, and on `"0C22 4C5 4C22 51C22"` exactly
`{count 4, diameter 22}` survives. -/
theorem parse_pingfa_range_filter (text : List Char) :
    (∀ r ∈ parse_pingfa text,
       1 ≤ r.count ∧ r.count ≤ 50 ∧ 6 ≤ r.diameter ∧ r.diameter ≤ 50) ∧
    (∀ c d : ℕ, (c, d) ∈ findallPingfa text →
       1 ≤ c → c ≤ 50 → 6 ≤ d → d ≤ 50 →
       ({ count := c, diameter := d } : RebarSpec) ∈ parse_pingfa text) ∧
    parse_pingfa ("0C22 4C5 4C22 51C22".toList) =
      [{ count := 4, diameter := 22 }] := by
  refine ⟨?_, ?_, by decide⟩
  · intro r hr
    unfold parse_pingfa at hr
    rw [List.mem_filterMap] at hr
    obtain ⟨m, _, hm⟩ := hr
    by_cases hc : 1 ≤ m.1 ∧ m.1 ≤ 50 ∧ 6 ≤ m.2 ∧ m.2 ≤ 50
    · rw [if_pos hc] at hm
      cases hm
      exact hc
    · rw [if_neg hc] at hm
      cases hm
  · intro c d hmem h1 h2 h3 h4
    unfold parse_pingfa
    rw [List.mem_filterMap]
    exact ⟨(c, d), hmem, by rw [if_pos ⟨h1, h2, h3, h4⟩]⟩

/-- Witness for C6 at a concrete text. -/
theorem parse_pingfa_range_filter_witness :
    ({ count := 4, diameter := 22 } : RebarSpec) ∈
      parse_pingfa ("0C22 4C5 4C22 51C22".toList) :=
  (parse_pingfa_range_filter ("0C22 4C5 4C22 51C22".toList)).2.1 4 22
    (by decide) (by decide) (by decide) (by decide) (by decide)

/-- C10: when at least 3 detections share fewer than 3 distinct centers,
`generateHoopPath` returns the distinct centers sorted by x then y (a
nonempty list of at most two points) and no inner ties. -/
theorem generate_hoop_path_degenerate (preds : List Point)
    (h3 : 3 ≤ preds.length) (hd : preds.dedup.length < 3) :
    (generate_hoop_path preds).outer_hoop = sortPts preds ∧
    (generate_hoop_path preds).outer_hoop ≠ [] ∧
    (generate_hoop_path preds).outer_hoop.length ≤ 2 ∧
    (generate_hoop_path preds).inner_ties = [] := by
  have hne : preds ≠ [] := by
    intro hc; rw [hc] at h3; simp at h3
  have hhull : convex_hull preds = sortPts preds :=
    convex_hull_of_dedup_lt_three h3 hd
  have hinner : find_inner_points preds (sortPts preds) = [] := by
    unfold find_inner_points
    rw [List.filter_eq_nil]
    intro p hp
    have hmem : p ∈ sortPts preds := mem_sortPts.2 hp
    simp [hmem]
  have hlen2 : (sortPts preds).length ≤ 2 := by
    rw [sortPts_length]; omega
  have hcond : ¬ preds.length < 3 := by omega
  refine ⟨?_, ?_, ?_, ?_⟩
  · simp [generate_hoop_path, hcond, hhull]
  · simp only [generate_hoop_path, if_neg hcond]
    simp only [hhull]
    exact sortPts_ne_nil hne
  · simp only [generate_hoop_path, if_neg hcond]
    simp only [hhull]
    exact hlen2
  · simp [generate_hoop_path, hcond, hhull, hinner]

/-- C1 (refuting the claim): with at least 2 detections, a positive scale
factor and any component type other than `slab_wall`/`beam_column`, the
segments are built without a status key, but the summary statistics line
then reads `s.status` on every segment, so a `KeyError` propagates out of
`process_spacing_check` instead of the segment list being returned. -/
theorem process_spacing_check_unknown_type_raises (preds : List Point)
    (ct : String) (ppm ts td tsp tol : ℚ)
    (h2 : 2 ≤ preds.length) (hp : 0 < ppm)
    (hs : ct ≠ "slab_wall") (hb : ct ≠ "beam_column") :
    process_spacing_check preds ct ppm ts td tsp tol =
      Except.error "KeyError: status" := by
  apply process_spacing_check_eq_error preds ct ppm ts td tsp tol h2 hp
  have hlen := spacingSegments_length preds ct ppm ts td tsp tol
  have hpos : 0 < (spacingSegments preds ct ppm ts td tsp tol).length := by omega
  refine ⟨(spacingSegments preds ct ppm ts td tsp tol).get ⟨0, hpos⟩,
    List.get_mem _ _ _, ?_⟩
  rw [segment_status]
  exact classify_other ct _ ts td tsp tol hs hb

/-- Witness for C1's theorem at a concrete failing input. -/
theorem process_spacing_check_unknown_type_raises_witness :
    process_spacing_check [((0:ℚ),(0:ℚ)),(100,0)] "column" 1 150 100 200 20 =
      Except.error "KeyError: status" :=
  process_spacing_check_unknown_type_raises
    [((0:ℚ),(0:ℚ)),(100,0)] "column" 1 150 100 200 20
    (by decide) (by norm_num) (by decide) (by decide)

/-- C3: for ≥ 2 detections and a positive scale factor, `slab_wall`
segments classify `pass` exactly on the inclusive window
`[target - tol, target + tol]` of their exact millimeter distance and
`fail` otherwise, while `beam_column` segments classify `pass_dense`
exactly when within tolerance of the dense target (taking priority),
`pass_sparse` exactly when not dense but within tolerance of the sparse
target, and `fail` otherwise. -/
theorem process_spacing_check_classification
    (preds : List Point) (ppm ts td tsp tol : ℚ)
    (h2 : 2 ≤ preds.length) (hp : 0 < ppm) :
    (∃ L, process_spacing_check preds "slab_wall" ppm ts td tsp tol = Except.ok L ∧
      L.length = preds.length - 1 ∧
      ∀ (i : ℕ) (hi : i < L.length),
        (((L.get ⟨i, hi⟩).status = some "pass") ↔
          ((ts : ℝ) - tol ≤ mmDist ppm ((spacingSorted preds).getD i ((0:ℚ),(0:ℚ)))
              ((spacingSorted preds).getD (i+1) ((0:ℚ),(0:ℚ))) ∧
            mmDist ppm ((spacingSorted preds).getD i ((0:ℚ),(0:ℚ)))
              ((spacingSorted preds).getD (i+1) ((0:ℚ),(0:ℚ))) ≤ (ts : ℝ) + tol)) ∧
        (((L.get ⟨i, hi⟩).status = some "fail") ↔
          ¬ ((ts : ℝ) - tol ≤ mmDist ppm ((spacingSorted preds).getD i ((0:ℚ),(0:ℚ)))
              ((spacingSorted preds).getD (i+1) ((0:ℚ),(0:ℚ))) ∧
            mmDist ppm ((spacingSorted preds).getD i ((0:ℚ),(0:ℚ)))
              ((spacingSorted preds).getD (i+1) ((0:ℚ),(0:ℚ))) ≤ (ts : ℝ) + tol))) ∧
    (∃ L, process_spacing_check preds "beam_column" ppm ts td tsp tol = Except.ok L ∧
      L.length = preds.length - 1 ∧
      ∀ (i : ℕ) (hi : i < L.length),
        (((L.get ⟨i, hi⟩).status = some "pass_dense") ↔
          |mmDist ppm ((spacingSorted preds).getD i ((0:ℚ),(0:ℚ)))
              ((spacingSorted preds).getD (i+1) ((0:ℚ),(0:ℚ))) - (td : ℝ)| ≤ (tol : ℝ)) ∧
        (((L.get ⟨i, hi⟩).status = some "pass_sparse") ↔
          (¬ |mmDist ppm ((spacingSorted preds).getD i ((0:ℚ),(0:ℚ)))
              ((spacingSorted preds).getD (i+1) ((0:ℚ),(0:ℚ))) - (td : ℝ)| ≤ (tol : ℝ) ∧
            |mmDist ppm ((spacingSorted preds).getD i ((0:ℚ),(0:ℚ)))
              ((spacingSorted preds).getD (i+1) ((0:ℚ),(0:ℚ))) - (tsp : ℝ)| ≤ (tol : ℝ))) ∧
        (((L.get ⟨i, hi⟩).status = some "fail") ↔
          (¬ |mmDist ppm ((spacingSorted preds).getD i ((0:ℚ),(0:ℚ)))
              ((spacingSorted preds).getD (i+1) ((0:ℚ),(0:ℚ))) - (td : ℝ)| ≤ (tol : ℝ) ∧
            ¬ |mmDist ppm ((spacingSorted preds).getD i ((0:ℚ),(0:ℚ)))
              ((spacingSorted preds).getD (i+1) ((0:ℚ),(0:ℚ))) - (tsp : ℝ)| ≤ (tol : ℝ)))) := by
  constructor
  · refine ⟨spacingSegments preds "slab_wall" ppm ts td tsp tol, ?_, ?_, ?_⟩
    · apply process_spacing_check_eq_ok preds _ ppm ts td tsp tol h2 hp
      intro s hs
      obtain ⟨i, hi, rfl⟩ := List.mem_iff_get.1 hs
      rw [segment_status, classify_slab_wall]
      split <;> simp
    · exact spacingSegments_length preds _ ppm ts td tsp tol
    · intro i hi
      rw [segment_status, classify_slab_wall]
      rw [← window_iff]
      split
      · rename_i hcond
        constructor
        · simp only [Option.some.injEq]
          exact ⟨fun _ => hcond, fun _ => trivial⟩
        · simp only [Option.some.injEq]
          constructor
          · intro hpf; exact absurd hpf (by decide)
          · intro hnot; exact absurd hcond hnot
      · rename_i hcond
        constructor
        · simp only [Option.some.injEq]
          constructor
          · intro hpf; exact absurd hpf.symm (by decide)
          · intro hw; exact absurd hw hcond
        · simp only [Option.some.injEq]
          exact ⟨fun _ => hcond, fun _ => trivial⟩
  · refine ⟨spacingSegments preds "beam_column" ppm ts td tsp tol, ?_, ?_, ?_⟩
    · apply process_spacing_check_eq_ok preds _ ppm ts td tsp tol h2 hp
      intro s hs
      obtain ⟨i, hi, rfl⟩ := List.mem_iff_get.1 hs
      rw [segment_status, classify_beam_column]
      split
      · simp
      · split <;> simp
    · exact spacingSegments_length preds _ ppm ts td tsp tol
    · intro i hi
      rw [segment_status, classify_beam_column]
      split
      · rename_i hdense
        refine ⟨?_, ?_, ?_⟩
        · simp only [Option.some.injEq]
          exact ⟨fun _ => hdense, fun _ => trivial⟩
        · simp only [Option.some.injEq]
          constructor
          · intro hpf; exact absurd hpf (by decide)
          · intro hc; exact absurd hdense hc.1
        · simp only [Option.some.injEq]
          constructor
          · intro hpf; exact absurd hpf (by decide)
          · intro hc; exact absurd hdense hc.1
      · rename_i hdense
        split
        · rename_i hsparse
          refine ⟨?_, ?_, ?_⟩
          · simp only [Option.some.injEq]
            constructor
            · intro hpf; exact absurd hpf (by decide)
            · intro hc; exact absurd hc hdense
          · simp only [Option.some.injEq]
            exact ⟨fun _ => ⟨hdense, hsparse⟩, fun _ => trivial⟩
          · simp only [Option.some.injEq]
            constructor
            · intro hpf; exact absurd hpf (by decide)
            · intro hc; exact absurd hsparse hc.2
        · rename_i hsparse
          refine ⟨?_, ?_, ?_⟩
          · simp only [Option.some.injEq]
            constructor
            · intro hpf; exact absurd hpf (by decide)
            · intro hc; exact absurd hc hdense
          · simp only [Option.some.injEq]
            constructor
            · intro hpf; exact absurd hpf (by decide)
            · intro hc; exact absurd hc.2 hsparse
          · simp only [Option.some.injEq]
            exact ⟨fun _ => ⟨hdense, hsparse⟩, fun _ => trivial⟩

/-- Witness for C3 at the spec's example: 3 centers at x = 0, 150, 300,
scale 1, target 150, tolerance 20 yield two segments. -/
theorem process_spacing_check_classification_witness :
    ∃ L, process_spacing_check [((0:ℚ),(0:ℚ)),(150,0),(300,0)]
        "slab_wall" 1 150 100 200 20 = Except.ok L ∧
      L.length = 2 := by
  obtain ⟨L, hok, hlen, _⟩ :=
    (process_spacing_check_classification [((0:ℚ),(0:ℚ)),(150,0),(300,0)]
      1 150 100 200 20 (by decide) (by norm_num)).1
  exact ⟨L, hok, by simpa using hlen⟩

/-- C9: the status of a segment is computed from the exact millimeter
distance, while the reported `mm_distance` is rounded to one decimal
place; at centers `(0,0)` and `(17004,0)` with 100 px/mm the exact
distance is 170.04 mm (outside the default window `[130, 170]`, hence
`fail`) but the reported `mm_distance` is 170.0, inside the window. -/
theorem spacing_rounding_divergence :
    ∃ s : SpacingInfo,
      process_spacing_check [((0:ℚ),(0:ℚ)),(17004,0)] "slab_wall" 100 150 100 200 20 =
        Except.ok [s] ∧
      mmDist 100 ((0:ℚ),(0:ℚ)) ((17004:ℚ),(0:ℚ)) = 170.04 ∧
      s.status = some "fail" ∧
      s.mm_distance = 170 ∧
      (150:ℝ) - 20 ≤ s.mm_distance ∧ s.mm_distance ≤ (150:ℝ) + 20 := by
  have hmm : mmDist 100 ((0:ℚ),(0:ℚ)) ((17004:ℚ),(0:ℚ)) = 170.04 := by
    unfold mmDist pxDist
    have h1 : ((((17004:ℚ),(0:ℚ)).1 - ((0:ℚ),(0:ℚ)).1) ^ 2 +
        (((17004:ℚ),(0:ℚ)).2 - ((0:ℚ),(0:ℚ)).2) ^ 2 : ℚ) = 17004 ^ 2 := by
      norm_num
    rw [h1]
    push_cast
    rw [Real.sqrt_sq (by norm_num : (0:ℝ) ≤ 17004)]
    norm_num
  have habs : ¬ |(170.04:ℝ) - (150:ℚ)| ≤ ((20:ℚ):ℝ) := by
    push_cast
    rw [abs_le]
    push_neg
    intro h
    norm_num
  have hsort : spacingSorted [((0:ℚ),(0:ℚ)),(17004,0)] = [((0:ℚ),(0:ℚ)),(17004,0)] := by
    norm_num [spacingSorted, listMax, listMin, List.insertionSort, List.orderedInsert,
      lexLe]
  have hseg : spacingSegments [((0:ℚ),(0:ℚ)),(17004,0)] "slab_wall" 100 150 100 200 20 =
      [mkSpacingInfo "slab_wall" 100 150 100 200 20 0 ((0:ℚ),(0:ℚ)) ((17004:ℚ),(0:ℚ))] := by
    unfold spacingSegments
    rw [hsort]
    rfl
  have hstatus : (mkSpacingInfo "slab_wall" 100 150 100 200 20 0
      ((0:ℚ),(0:ℚ)) ((17004:ℚ),(0:ℚ))).status = some "fail" := by
    rw [mkSpacingInfo_status, classify_slab_wall, hmm, if_neg habs]
  have hround : (mkSpacingInfo "slab_wall" 100 150 100 200 20 0
      ((0:ℚ),(0:ℚ)) ((17004:ℚ),(0:ℚ))).mm_distance = 170 := by
    show round1R (mmDist 100 ((0:ℚ),(0:ℚ)) ((17004:ℚ),(0:ℚ))) = 170
    rw [hmm]
    unfold round1R
    have h10 : (10:ℝ) * 170.04 = 1700.4 := by norm_num
    rw [h10, round_eq]
    have hfl : ⌊(1700.4:ℝ) + 1 / 2⌋ = 1700 := by
      rw [Int.floor_eq_iff]
      constructor <;> norm_num
    rw [hfl]
    norm_num
  refine ⟨mkSpacingInfo "slab_wall" 100 150 100 200 20 0
      ((0:ℚ),(0:ℚ)) ((17004:ℚ),(0:ℚ)), ?_, hmm, hstatus, hround, ?_, ?_⟩
  · rw [← hseg]
    apply process_spacing_check_eq_ok _ _ _ _ _ _ _ (by decide) (by norm_num)
    intro s hs
    rw [hseg, List.mem_singleton] at hs
    subst hs
    rw [hstatus]
    rfl
  · rw [hround]; norm_num
  · rw [hround]; norm_num

/-- Witness for C10 at a concrete degenerate input. -/
theorem generate_hoop_path_degenerate_witness :
    (generate_hoop_path [((1:ℚ),(1:ℚ)),(1,1),(0,0)]).outer_hoop =
      sortPts [((1:ℚ),(1:ℚ)),(1,1),(0,0)] ∧
    (generate_hoop_path [((1:ℚ),(1:ℚ)),(1,1),(0,0)]).inner_ties = [] := by
  have h := generate_hoop_path_degenerate
    [((1:ℚ),(1:ℚ)),(1,1),(0,0)] (by decide) (by decide)
  exact ⟨h.1, h.2.2.2⟩

/-- C8: `convex_hull` is idempotent — applying it to its own output
returns exactly the same list.  Small inputs are returned verbatim on
the rerun; in the main case the hull output has no duplicate vertices,
and the original chains satisfy the full scan invariant over the sorted
hull output, which determines the rescanned chains uniquely. -/
theorem convex_hull_idempotent (points : List Point) :
    convex_hull (convex_hull points) = convex_hull points := by
  have hsmall : ∀ l : List Point, l.length < 3 → convex_hull l = l := fun l hl => by
    rw [convex_hull, if_pos hl]
  by_cases h1 : points.length < 3
  · rw [hsmall points h1]
    exact hsmall points h1
  · push_neg at h1
    by_cases h2 : (sortPts points).length < 3
    · have hO : convex_hull points = sortPts points := by
        rw [convex_hull, if_neg (by omega)]
        simp only []
        rw [if_pos h2]
      rw [hO]
      exact hsmall _ h2
    · push_neg at h2
      by_cases h3 : (convex_hull points).length < 3
      · exact hsmall _ h3
      · push_neg at h3
        obtain ⟨hL, hU⟩ := rescan_hull points h1 h2
        have hnd := hull_nodup points h1 h2
        have hOp3 : 3 ≤ (sortPts (convex_hull points)).length := by
          rw [sortPts_length, List.dedup_eq_self.2 hnd]
          exact h3
        rw [convex_hull_main (convex_hull points) h3 hOp3, hL, hU,
          ← convex_hull_main points h1 h2]

/-- C7: whenever the hull output has at least 3 vertices, every triple
of consecutive hull vertices — reading the hull in order with
wraparound, i.e. all consecutive triples of the output followed by its
first two vertices again — makes a strict left turn (positive cross
product); in particular no three consecutive hull vertices are
collinear. -/
theorem convex_hull_strict_turns (points : List Point)
    (h3 : 3 ≤ (convex_hull points).length) :
    Turn3 (convex_hull points ++ (convex_hull points).take 2) := by
  by_cases hlt : points.length < 3
  · rw [convex_hull, if_pos hlt] at h3
    omega
  · push_neg at hlt
    by_cases hslt : (sortPts points).length < 3
    · have he : convex_hull points = sortPts points := by
        rw [convex_hull, if_neg (by omega)]
        simp only []
        rw [if_pos hslt]
      rw [he] at h3
      omega
    · push_neg at hslt
      obtain ⟨rest, hdecomp, hlen5⟩ := hull_cycle_decomp points hlt hslt h3
      have hD := turn3_big points hslt hlen5
      rw [hdecomp] at hD
      exact turn3_append_left _ rest hD

/-- Witness for C7 at a concrete triangle input. -/
theorem convex_hull_strict_turns_witness :
    3 ≤ (convex_hull [((0:ℚ),(0:ℚ)),(2,0),(1,1)]).length ∧
    Turn3 (convex_hull [((0:ℚ),(0:ℚ)),(2,0),(1,1)]
      ++ (convex_hull [((0:ℚ),(0:ℚ)),(2,0),(1,1)]).take 2) := by
  have hsort : sortPts [((0:ℚ),(0:ℚ)),(2,0),(1,1)]
      = [((0:ℚ),(0:ℚ)),(1,1),(2,0)] := by decide
  have hlower : List.foldl push [] [((0:ℚ),(0:ℚ)),(1,1),(2,0)]
      = [((2:ℚ),(0:ℚ)), ((0:ℚ),(0:ℚ))] := by
    show push (push (push [] ((0:ℚ),(0:ℚ))) ((1:ℚ),(1:ℚ))) ((2:ℚ),(0:ℚ)) = _
    rw [show push (push ([] : List Point) ((0:ℚ),(0:ℚ))) ((1:ℚ),(1:ℚ))
      = [((1:ℚ),(1:ℚ)), ((0:ℚ),(0:ℚ))] from rfl]
    rw [push]
    rw [if_pos (show cross_product ((0:ℚ),(0:ℚ)) ((1:ℚ),(1:ℚ)) ((2:ℚ),(0:ℚ)) ≤ 0 by
      norm_num [cross_product])]
    rfl
  have hupper : List.foldl push [] [((2:ℚ),(0:ℚ)),(1,1),(0,0)]
      = [((0:ℚ),(0:ℚ)),(1,1),(2,0)] := by
    show push (push (push [] ((2:ℚ),(0:ℚ))) ((1:ℚ),(1:ℚ))) ((0:ℚ),(0:ℚ)) = _
    rw [show push (push ([] : List Point) ((2:ℚ),(0:ℚ))) ((1:ℚ),(1:ℚ))
      = [((1:ℚ),(1:ℚ)), ((2:ℚ),(0:ℚ))] from rfl]
    rw [push]
    rw [if_neg (show ¬ cross_product ((2:ℚ),(0:ℚ)) ((1:ℚ),(1:ℚ)) ((0:ℚ),(0:ℚ)) ≤ 0 by
      norm_num [cross_product])]
  have hhull : convex_hull [((0:ℚ),(0:ℚ)),(2,0),(1,1)]
      = [((0:ℚ),(0:ℚ)),(2,0),(1,1)] := by
    rw [convex_hull]
    rw [if_neg (by decide)]
    simp only []
    rw [hsort]
    rw [if_neg (by decide)]
    rw [scanChain, scanChain]
    rw [show ([((0:ℚ),(0:ℚ)),(1,1),(2,0)] : List Point).reverse
      = [((2:ℚ),(0:ℚ)),(1,1),(0,0)] from rfl]
    rw [hlower, hupper]
    rfl
  have hlen : 3 ≤ (convex_hull [((0:ℚ),(0:ℚ)),(2,0),(1,1)]).length := by
    rw [hhull]
    simp
  exact ⟨hlen, convex_hull_strict_turns _ hlen⟩

/-- Witness for C4 at a concrete input: the interior point `(1, 0)` of a
diamond lies in the convex hull of the output vertex set. -/
theorem convex_hull_contains_witness :
    ((1:ℚ),(0:ℚ)) ∈ ([((0:ℚ),(0:ℚ)),(1,1),(2,0),(1,-1),(1,0)] : List Point) ∧
    ((1:ℚ),(0:ℚ)) ∈ convexHull ℚ
      {x : Point | x ∈ convex_hull [((0:ℚ),(0:ℚ)),(1,1),(2,0),(1,-1),(1,0)]} :=
  ⟨by decide, convex_hull_contains _ _ (by decide)⟩

end Rebar
